import Mathlib

/-!
A shallow embedding of the `value-log` crate (fjall-rs), faithful to the
sources under `src/`, together with theorems settling the specification
claims about it.

Conventions:
* bytes are `Nat` values `< 256`, files and buffers are `List Nat`;
* machine integers are `Nat` with explicit bounds / truncation where the
  Rust code can overflow;
* fallible Rust code returns `Except`/`Option`; a Rust `panic!`/`assert!`
  is modelled as `Option.none`;
* `f32` arithmetic of the GC strategies is modelled over `ℚ` (exact
  rationals); all concrete counterexamples use values on which `f32`
  arithmetic is exact, so they transfer to the floating-point program.
-/

/-- Big-endian encoding of `n` into `w` bytes (truncating like the Rust
`byteorder::BigEndian` writers do for the given width). -/
def beBytes (w n : Nat) : List Nat :=
  (List.range w).map (fun i => n / 256 ^ (w - 1 - i) % 256)

/-- Big-endian decoding of a byte list (as done by `byteorder` readers). -/
def fromBE (l : List Nat) : Nat :=
  l.foldl (fun a b => a * 256 + b) 0

/-- `Read::read_exact` on a pure byte list: take `n` bytes or fail (EOF). -/
def readExact (n : Nat) (l : List Nat) : Option (List Nat × List Nat) :=
  if n ≤ l.length then some (l.take n, l.drop n) else none

theorem beBytes_length (w n : Nat) : (beBytes w n).length = w := by
  simp [beBytes]

/-- One bit step of CRC-32 (polynomial 0xEDB88320, reflected), as computed
by the `crc32fast` crate used in `segment/writer.rs`. -/
def crc32Step (c : Nat) : Nat :=
  if c % 2 = 1 then (c / 2) ^^^ 0xEDB88320 else c / 2

/-- Fold one byte into the CRC-32 state. -/
def crc32Byte (c b : Nat) : Nat :=
  crc32Step^[8] (c ^^^ b)

/-- CRC-32 (IEEE) of a byte list, as `crc32fast::Hasher` computes it. -/
def crc32 (data : List Nat) : Nat :=
  (data.foldl crc32Byte 0xFFFFFFFF) ^^^ 0xFFFFFFFF

/-! ## The blob-file writer present in `src/src/segment/writer.rs`

That file is a historical variant of the writer: it emits records laid out
as `KEY_LEN(u16 BE) ‖ KEY ‖ CRC32(u32 BE) ‖ VAL_LEN(u32 BE) ‖ VAL`, with no
record magic, and it does not define the `BLOB_HEADER_MAGIC` constant that
`src/src/segment/reader.rs` imports from it.  We embed it as written.
Compression is `None` throughout (no compressor configured), so the stored
value equals the user value. -/

structure SegWriter where
  segment_id : Nat
  buf : List Nat
  offset : Nat
  item_count : Nat
  written_blob_bytes : Nat
  uncompressed_bytes : Nat
  first_key : Option (List Nat)
  last_key : Option (List Nat)
deriving Repr, DecidableEq

/-- A fresh writer for a new segment file (`Writer::new`). -/
def SegWriter.make (id : Nat) : SegWriter :=
  ⟨id, [], 0, 0, 0, 0, none, none⟩

/-- The byte sequence `Writer::write` appends for one record
(uncompressed path): key length prefix, key, CRC-32 of the stored value,
value length prefix, value. -/
def writerRecord (key value : List Nat) : List Nat :=
  beBytes 2 key.length ++ key ++ beBytes 4 (crc32 value) ++
    beBytes 4 value.length ++ value

/-- `Writer::write` from `src/src/segment/writer.rs`.  The three input
`assert!`s (key non-empty, key length ≤ `u16::MAX`, value length
representable as `u32`) panic on violation, modelled as `none`.
Returns the updated writer and the number of bytes written for the value. -/
def SegWriter.write (w : SegWriter) (key value : List Nat) :
    Option (SegWriter × Nat) :=
  if key = [] ∨ key.length > 65535 ∨ value.length > 4294967295 then
    none
  else
    some
      ({ w with
          first_key := match w.first_key with
            | none => some key
            | some k => some k
          last_key := some key
          uncompressed_bytes := w.uncompressed_bytes + value.length
          buf := w.buf ++ writerRecord key value
          offset := w.offset + 4 + 2 + key.length + 4 + value.length
          written_blob_bytes := w.written_blob_bytes + value.length
          item_count := w.item_count + 1 },
        value.length)

/-- C9: the writer rejects exactly the out-of-bounds inputs.
For every writer state, `write(key, value)` fails (panics, appending
nothing) iff the key is empty, longer than 65535 bytes, or the value is
longer than `2^32 − 1` bytes; within bounds it appends exactly one record
and bumps the counters. -/
theorem C9_write_validation (w : SegWriter) (key value : List Nat) :
    (SegWriter.write w key value = none ↔
      key = [] ∨ key.length > 65535 ∨ value.length > 2 ^ 32 - 1) ∧
    (key ≠ [] → key.length ≤ 65535 → value.length ≤ 2 ^ 32 - 1 →
      ∃ w', SegWriter.write w key value = some (w', value.length) ∧
        w'.buf = w.buf ++ beBytes 2 key.length ++ key ++
          beBytes 4 (crc32 value) ++ beBytes 4 value.length ++ value ∧
        w'.item_count = w.item_count + 1 ∧
        w'.uncompressed_bytes = w.uncompressed_bytes + value.length ∧
        w'.written_blob_bytes = w.written_blob_bytes + value.length ∧
        w'.offset = w.offset + 4 + 2 + key.length + 4 + value.length) := by
  constructor
  · unfold SegWriter.write
    split
    · simp_all
    · simp_all
  · intro h1 h2 h3
    unfold SegWriter.write
    have hnot : ¬(key = [] ∨ key.length > 65535 ∨
        value.length > 4294967295) := by
      push_neg
      refine ⟨h1, by omega, by omega⟩
    rw [if_neg hnot]
    exact ⟨_, rfl, by simp [writerRecord], rfl, rfl, rfl, rfl⟩

/-- Witness for C9 at a concrete input: key `[107]` ("k"), value `[118]`
("v") are in bounds and the write succeeds appending one record. -/
theorem C9_write_validation_witness :
    ([107] : List Nat) ≠ [] ∧
    ∃ w', SegWriter.write (SegWriter.make 0) [107] [118] = some (w', 1) ∧
      w'.item_count = 1 := by
  refine ⟨by decide, ?_⟩
  obtain ⟨w', hw, _, hc, -⟩ :=
    (C9_write_validation (SegWriter.make 0) [107] [118]).2
      (by decide) (by decide) (by decide)
  exact ⟨w', hw, by rw [hc]; rfl⟩

/-! ## Errors (`src/src/error.rs`, `src/src/coding.rs`)

`DecodeErr` follows `coding.rs::DecodeError`.  The `unrecoverable`
constructor is referenced by `manifest.rs` (`crate::Error::Unrecoverable`)
although the `error.rs` in this corpus does not list it; we include it so
that `manifest.rs` can be embedded as written. -/

inductive DecodeErr where
  | io : DecodeErr
  | invalidTag : String → Nat → DecodeErr
  | invalidTrailer : DecodeErr
  | invalidHeader : String → DecodeErr
deriving Repr, DecidableEq

inductive VError where
  | io : VError
  | invalidVersion : VError
  | encode : VError
  | decode : DecodeErr → VError
  | compress : VError
  | decompress : VError
  | unrecoverable : VError
deriving Repr, DecidableEq

/-- Modelled from the spec: `BLOB_HEADER_MAGIC` is imported by
`src/src/segment/reader.rs` from `segment/writer.rs`, but no definition of
it exists under `src/`.  The spec (§6, "Blob file format") gives the
record magic as the implementation-chosen 4 bytes `"VBLB"`, and §3 calls
it `MAGIC(4B)`; we take exactly those 4 bytes. -/
def BLOB_HEADER_MAGIC : List Nat := [86, 66, 76, 66]

/-- `METADATA_HEADER_MAGIC` from `src/src/segment/meta.rs`:
`"VLOGSMD1"` (8 bytes). -/
def METADATA_HEADER_MAGIC : List Nat := [86, 76, 79, 71, 83, 77, 68, 49]

/-- `TRAILER_MAGIC` from `src/src/segment/trailer.rs`: `"VLOGTRL1"`. -/
def TRAILER_MAGIC : List Nat := [86, 76, 79, 71, 84, 82, 76, 49]

/-- Result of one `Reader::next` call (`src/src/segment/reader.rs`):
`stop` models the iterator returning `None` (either the metadata-magic
termination or the tolerated `UnexpectedEof` cases), `fail` models
`Some(Err(_))`, and `item` carries the parsed record plus the remaining
bytes of the file after the record. -/
inductive NextResult where
  | stop : NextResult
  | fail : VError → NextResult
  | item : List Nat → List Nat → Nat → List Nat → NextResult
deriving Repr, DecidableEq

/-- The body of `Reader::next` after the magic check: checksum (u64),
key length (u16), key, value length (u32), value.  EOF on the fixed-width
integer reads returns `None` (`stop`); EOF inside `read_exact` of the key
or value bytes is an error.  No compressor is configured, so the value is
returned as read. -/
def readerBody (r1 : List Nat) : NextResult :=
  match readExact 8 r1 with
  | none => .stop
  | some (ck, r2) =>
    match readExact 2 r2 with
    | none => .stop
    | some (kl, r3) =>
      match readExact (fromBE kl) r3 with
      | none => .fail .io
      | some (key, r4) =>
        match readExact 4 r4 with
        | none => .stop
        | some (vl, r5) =>
          match readExact (fromBE vl) r5 with
          | none => .fail .io
          | some (val, r6) => .item key val (fromBE ck) r6

/-- `Reader::next` positioned at `bytes` (a suffix of the blob file):
read `BLOB_HEADER_MAGIC.len()` bytes, compare them against
`METADATA_HEADER_MAGIC` (clean termination) and `BLOB_HEADER_MAGIC`
(otherwise `InvalidHeader("Blob")`), then parse the record body.
A failed `read_exact` on the magic itself is returned as an error. -/
def readerNext (bytes : List Nat) : NextResult :=
  match readExact BLOB_HEADER_MAGIC.length bytes with
  | none => .fail .io
  | some (buf, r1) =>
    if buf = METADATA_HEADER_MAGIC then .stop
    else if buf ≠ BLOB_HEADER_MAGIC then .fail (.decode (.invalidHeader "Blob"))
    else readerBody r1

/-- C8 counterexample: position the scanner at the start of a metadata
block (the 8-byte metadata magic followed by the metadata fields, here the
beginning of `item_count`).  The scanner does **not** terminate cleanly:
the 4 bytes it reads can never equal the 8-byte metadata magic, so it
yields `InvalidHeader("Blob")`. -/
theorem C8_metadata_not_clean_stop :
    readerNext (METADATA_HEADER_MAGIC ++ beBytes 8 5) =
      .fail (.decode (.invalidHeader "Blob")) ∧
    readerNext (METADATA_HEADER_MAGIC ++ beBytes 8 5) ≠ .stop := by
  constructor
  · decide
  · decide

/-- C8 amended: at every position with at least 4 readable bytes, the
scanner reads 4 bytes; these can never match the 8-byte metadata magic
(so the clean-termination branch is unreachable); bytes matching the
record magic continue with the record body; any other bytes yield the
`InvalidHeader` decode error. -/
theorem C8_magic_dispatch (bytes : List Nat) (h : 4 ≤ bytes.length) :
    bytes.take 4 ≠ METADATA_HEADER_MAGIC ∧
    (bytes.take 4 = BLOB_HEADER_MAGIC →
      readerNext bytes = readerBody (bytes.drop 4)) ∧
    (bytes.take 4 ≠ BLOB_HEADER_MAGIC →
      readerNext bytes = .fail (.decode (.invalidHeader "Blob"))) := by
  have hlen : (bytes.take 4).length = 4 := by
    simp [List.length_take]
    omega
  have hne : bytes.take 4 ≠ METADATA_HEADER_MAGIC := by
    intro hEq
    rw [hEq] at hlen
    simp [METADATA_HEADER_MAGIC] at hlen
  refine ⟨hne, ?_, ?_⟩
  · intro hb
    unfold readerNext readExact
    rw [if_pos (by simpa [BLOB_HEADER_MAGIC] using h)]
    simp only [BLOB_HEADER_MAGIC]
    rw [if_neg (by simpa [BLOB_HEADER_MAGIC] using hne)]
    simp_all [BLOB_HEADER_MAGIC]
  · intro hb
    unfold readerNext readExact
    rw [if_pos (by simpa [BLOB_HEADER_MAGIC] using h)]
    simp only [BLOB_HEADER_MAGIC]
    rw [if_neg (by simpa [BLOB_HEADER_MAGIC] using hne)]
    simp_all [BLOB_HEADER_MAGIC]

/-- Witness for C8's amended theorem at a concrete position: a record
start (the 4-byte record magic followed by a minimal record body). -/
theorem C8_magic_dispatch_witness :
    readerNext (BLOB_HEADER_MAGIC ++ beBytes 8 7 ++ beBytes 2 1 ++ [107] ++
        beBytes 4 1 ++ [118]) =
      readerBody ((BLOB_HEADER_MAGIC ++ beBytes 8 7 ++ beBytes 2 1 ++ [107] ++
        beBytes 4 1 ++ [118]).drop 4) :=
  (C8_magic_dispatch _ (by decide)).2.1 (by decide)

/-! ## Value handles and the read path (`src/src/handle.rs`,
`src/src/value_log.rs::get_with_prefetch`) -/

/-- `ValueHandle` from `src/src/handle.rs`. -/
structure ValueHandle where
  segment_id : Nat
  offset : Nat
deriving Repr, DecidableEq

/-- The blob cache, keyed by value handle (a single value log, so the
`vlog_id` component of the cache key is constant and omitted).  Newest
insertions are consulted first, modelling `quick_cache` lookup. -/
def BCache : Type := List (ValueHandle × List Nat)

/-- Cache lookup (`BlobCache::get`). -/
def bcGet (c : BCache) (h : ValueHandle) : Option (List Nat) :=
  List.lookup h c

/-- The segment set visible to the read path: `segment_id` to blob-file
bytes (the `path` of each `Segment` resolved to its file contents). -/
def ReadManifest : Type := List (Nat × List Nat)

/-- The prefetch loop of `ValueLog::get_with_prefetch`: up to `n` more
records are read sequentially; before each read the stream position is
taken (`reader.get_offset()`), and the parsed value is inserted into the
blob cache under the handle `(segment_id, offset)`.  `None` from the
reader breaks the loop; an error aborts the whole `get`. -/
def prefetchLoop (file : List Nat) (segId : Nat) :
    Nat → Nat → BCache → List Nat →
    Except VError (Option (List Nat)) × BCache
  | 0, _, cache, primary => (.ok (some primary), cache)
  | n + 1, pos, cache, primary =>
    match readerNext (file.drop pos) with
    | .stop => (.ok (some primary), cache)
    | .fail e => (.error e, cache)
    | .item _ val _ rest =>
      prefetchLoop file segId n (file.length - rest.length)
        ((⟨segId, pos⟩, val) :: cache) primary

/-- `ValueLog::get_with_prefetch` from `src/src/value_log.rs`: consult the
blob cache; on miss look the segment up in the manifest (absent ⇒
`Ok(None)`); open the file, seek to the handle's offset, read one record
with the segment reader; insert the value into the blob cache; then
prefetch up to `prefetch_size` following records. -/
def getWithPrefetch (manifest : ReadManifest) (cache : BCache)
    (h : ValueHandle) (prefetch_size : Nat) :
    Except VError (Option (List Nat)) × BCache :=
  match bcGet cache h with
  | some value => (.ok (some value), cache)
  | none =>
    match List.lookup h.segment_id manifest with
    | none => (.ok none, cache)
    | some file =>
      match readerNext (file.drop h.offset) with
      | .stop => (.ok none, cache)
      | .fail e => (.error e, cache)
      | .item _ val _ rest =>
        prefetchLoop file h.segment_id prefetch_size
          (file.length - rest.length) ((h, val) :: cache) val

/-- `ValueLog::get` is `get_with_prefetch` with prefetch size 0. -/
def vlogGet (manifest : ReadManifest) (cache : BCache) (h : ValueHandle) :
    Except VError (Option (List Nat)) × BCache :=
  getWithPrefetch manifest cache h 0

/-- C10: a handle whose segment id is not in the manifest and whose value
is not cached resolves to `Ok(None)` — absence, not an error — and the
blob cache is consulted before the manifest, so a cached value is
returned even when the segment has been dropped from the manifest. -/
theorem C10_get_absent_segment (manifest : ReadManifest) (cache : BCache)
    (h : ValueHandle) (n : Nat) :
    (bcGet cache h = none → List.lookup h.segment_id manifest = none →
      getWithPrefetch manifest cache h n = (.ok none, cache) ∧
      vlogGet manifest cache h = (.ok none, cache)) ∧
    (∀ v, bcGet cache h = some v →
      getWithPrefetch manifest cache h n = (.ok (some v), cache) ∧
      vlogGet manifest cache h = (.ok (some v), cache)) := by
  constructor
  · intro hc hm
    constructor
    · unfold getWithPrefetch
      rw [hc, hm]
    · unfold vlogGet getWithPrefetch
      rw [hc, hm]
  · intro v hc
    constructor
    · unfold getWithPrefetch
      rw [hc]
    · unfold vlogGet getWithPrefetch
      rw [hc]

/-- Witness for C10: a dropped segment id (7) with an empty cache yields
`Ok(None)`, and with the value still cached yields the cached bytes. -/
theorem C10_get_absent_segment_witness :
    getWithPrefetch [(0, [1, 2, 3])] [] ⟨7, 0⟩ 2 = (.ok none, []) ∧
    getWithPrefetch [(0, [1, 2, 3])] [(⟨7, 0⟩, [9])] ⟨7, 0⟩ 2 =
      (.ok (some [9]), [(⟨7, 0⟩, [9])]) := by
  constructor
  · exact ((C10_get_absent_segment [(0, [1, 2, 3])] [] ⟨7, 0⟩ 2).1
      (by decide) (by decide)).1
  · exact ((C10_get_absent_segment [(0, [1, 2, 3])]
      [(⟨7, 0⟩, [9])] ⟨7, 0⟩ 2).2 [9] (by decide)).1

/-! ## Manifest persistence and `atomic_swap` (`src/src/manifest.rs`) -/

theorem beBytes_succ (w n : Nat) :
    beBytes (w + 1) n = (n / 256 ^ w % 256) :: beBytes w n := by
  simp only [beBytes, List.range_succ_eq_map, List.map_cons, List.map_map]
  congr 1
  apply List.map_congr_left
  intro i hi
  simp only [Function.comp_apply]
  have he : w + 1 - 1 - i.succ = w - 1 - i := by omega
  rw [he]

theorem foldl_beBytes (w n a : Nat) :
    (beBytes w n).foldl (fun x b => x * 256 + b) a =
      a * 256 ^ w + n % 256 ^ w := by
  induction w generalizing a with
  | zero => simp [beBytes, Nat.mod_one]
  | succ w ih =>
    rw [beBytes_succ, List.foldl_cons, ih]
    have hx := Nat.div_add_mod (n % (256 ^ w * 256)) (256 ^ w)
    rw [Nat.mod_mul_right_div_self,
      Nat.mod_mod_of_dvd n (Dvd.intro 256 rfl)] at hx
    rw [pow_succ, ← hx]
    ring

/-- `fromBE` inverts `beBytes` up to the width's modulus. -/
theorem fromBE_beBytes (w n : Nat) : fromBE (beBytes w n) = n % 256 ^ w := by
  unfold fromBE
  rw [foldl_beBytes]
  simp

/-- `SegmentManifest::write_to_disk`: `u64` count followed by the segment
ids, all big-endian. -/
def writeToDisk (ids : List Nat) : List Nat :=
  beBytes 8 ids.length ++ (ids.map (beBytes 8)).flatten

/-- The id-reading loop of `load_ids_from_disk`: read `cnt` big-endian
`u64` values from the cursor. -/
def loadIdsLoop : Nat → List Nat → Except VError (List Nat)
  | 0, _ => .ok []
  | cnt + 1, bytes =>
    match readExact 8 bytes with
    | none => .error .io
    | some (idb, rest) =>
      match loadIdsLoop cnt rest with
      | .error e => .error e
      | .ok ids => .ok (fromBE idb :: ids)

/-- `SegmentManifest::load_ids_from_disk`: parse the `u64` count, then
that many `u64` segment ids. -/
def loadIdsFromDisk (bytes : List Nat) : Except VError (List Nat) :=
  match readExact 8 bytes with
  | none => .error .io
  | some (cntb, rest) => loadIdsLoop (fromBE cntb) rest

/-- Success or failure of the filesystem part of one `rewrite_atomic`
call.  Because the rewrite goes through a temp file renamed over the
target, a failure leaves the previous file contents in place. -/
inductive IoOutcome where
  | ok : IoOutcome
  | iofail : IoOutcome
deriving Repr, DecidableEq

/-- `rewrite_atomic` from `src/src/manifest.rs`: on success the target
file holds exactly `content`; on failure the old contents survive and the
error is reported. -/
def rewriteAtomic (content : List Nat) (out : IoOutcome) :
    Except VError (List Nat) :=
  match out with
  | .iofail => .error .io
  | .ok => .ok content

/-- In-memory manifest plus its on-disk file, over an arbitrary segment
payload type `σ` (in the source, `Arc<Segment>`). -/
structure ManifestState (σ : Type) where
  segments : List (Nat × σ)
  disk : List Nat

/-- `SegmentManifest::atomic_swap` from `src/src/manifest.rs`: clone the
current map, run the mutator `f` on the working copy, persist the new id
list via `rewrite_atomic`, and only on success publish the working copy.
The pair returned is (call result, resulting state): on a persistence
failure the state — in particular the in-memory map — is the old one. -/
def atomicSwap {σ : Type} (f : List (Nat × σ) → List (Nat × σ))
    (out : IoOutcome) (st : ManifestState σ) :
    Except VError Unit × ManifestState σ :=
  let working := f st.segments
  let ids := working.map (·.1)
  match rewriteAtomic (writeToDisk ids) out with
  | .error e => (.error e, st)
  | .ok newDisk => (.ok (), ⟨working, newDisk⟩)

theorem loadIdsLoop_roundtrip (ids : List Nat) (tail : List Nat)
    (hb : ∀ id ∈ ids, id < 256 ^ 8) :
    loadIdsLoop ids.length ((ids.map (beBytes 8)).flatten ++ tail) =
      .ok ids := by
  induction ids with
  | nil => simp [loadIdsLoop]
  | cons id rest ih =>
    have hlen : (beBytes 8 id).length = 8 := beBytes_length 8 id
    have h8 : readExact 8 (beBytes 8 id ++
          ((rest.map (beBytes 8)).flatten ++ tail)) =
        some (beBytes 8 id, (rest.map (beBytes 8)).flatten ++ tail) := by
      unfold readExact
      rw [if_pos (by simp [hlen])]
      rw [List.take_append_of_le_length (by omega),
        List.drop_append_of_le_length (by omega)]
      rw [List.take_of_length_le (by omega), List.drop_of_length_le (by omega)]
      simp
    simp only [List.map_cons, List.flatten_cons, List.length_cons,
      List.append_assoc]
    simp only [loadIdsLoop, h8]
    rw [ih (fun i hi => hb i (List.mem_cons_of_mem id hi))]
    rw [fromBE_beBytes]
    rw [Nat.mod_eq_of_lt (hb id (List.mem_cons_self id rest))]

/-- What `write_to_disk` persists, `load_ids_from_disk` parses back. -/
theorem loadIds_writeToDisk (ids : List Nat)
    (hb : ∀ id ∈ ids, id < 256 ^ 8) (hc : ids.length < 256 ^ 8) :
    loadIdsFromDisk (writeToDisk ids) = .ok ids := by
  have hlen : (beBytes 8 ids.length).length = 8 := beBytes_length 8 _
  have hr : readExact 8 (writeToDisk ids) =
      some (beBytes 8 ids.length, (ids.map (beBytes 8)).flatten) := by
    unfold writeToDisk readExact
    rw [if_pos (by simp [hlen])]
    rw [List.take_append_of_le_length (by omega),
      List.drop_append_of_le_length (by omega)]
    rw [List.take_of_length_le (by omega), List.drop_of_length_le (by omega)]
    simp
  unfold loadIdsFromDisk
  rw [hr]
  simp only [fromBE_beBytes, Nat.mod_eq_of_lt hc]
  simpa using loadIdsLoop_roundtrip ids [] hb

/-- C4: `atomic_swap` is atomic with respect to persistence failures.
For every mutator: if persisting the manifest fails, the call errors and
the in-memory segment map (and the manifest file) are exactly what they
were before; if persisting succeeds, the live map is the mutated clone
and the manifest file parses back to exactly the new id list. -/
theorem C4_atomic_swap {σ : Type} (f : List (Nat × σ) → List (Nat × σ))
    (st : ManifestState σ)
    (hb : ∀ id ∈ (f st.segments).map (·.1), id < 256 ^ 8)
    (hc : ((f st.segments).map (·.1)).length < 256 ^ 8) :
    atomicSwap f .iofail st = (.error .io, st) ∧
    ∃ st', atomicSwap f .ok st = (.ok (), st') ∧
      st'.segments = f st.segments ∧
      loadIdsFromDisk st'.disk = .ok ((f st.segments).map (·.1)) := by
  refine ⟨rfl, ⟨f st.segments, writeToDisk ((f st.segments).map (·.1))⟩,
    ?_, rfl, ?_⟩
  · rfl
  · exact loadIds_writeToDisk _ hb hc

/-- Witness for C4 at a concrete manifest: a mutator inserting segment id
3 into a map currently holding id 1. -/
theorem C4_atomic_swap_witness :
    atomicSwap (fun m => m ++ [(3, 77)]) .iofail
        ⟨[(1, 42)], writeToDisk [1]⟩ =
      (.error .io, ⟨[(1, 42)], writeToDisk [1]⟩) ∧
    ∃ st', atomicSwap (fun m => m ++ [(3, 77)]) .ok
        ⟨[(1, 42)], writeToDisk [1]⟩ = (.ok (), st') ∧
      st'.segments = [(1, 42), (3, 77)] ∧
      loadIdsFromDisk st'.disk = .ok [1, 3] := by
  obtain ⟨h1, st', h2, h3, h4⟩ :=
    C4_atomic_swap (fun m => m ++ [(3, 77)]) ⟨[(1, 42)], writeToDisk [1]⟩
      (by decide) (by decide)
  exact ⟨h1, st', h2, h3, h4⟩

/-! ## Segment metadata, trailer, and recovery
(`src/src/segment/meta.rs`, `src/src/segment/trailer.rs`,
`src/src/manifest.rs::recover`) -/

/-- `Metadata` from `src/src/segment/meta.rs`.  Without the optional
cargo features only `CompressionType::None` (tag 0) exists, so the
compression descriptor is not stored as a field here; its tag byte is
still parsed and validated. -/
structure SegMetadata where
  item_count : Nat
  compressed_bytes : Nat
  total_uncompressed_bytes : Nat
  key_range : List Nat × List Nat
deriving Repr, DecidableEq

instance {ε α : Type} [DecidableEq ε] [DecidableEq α] :
    DecidableEq (Except ε α) := fun a b =>
  match a, b with
  | .error e, .error f =>
    if h : e = f then isTrue (by rw [h]) else isFalse (by simp [h])
  | .ok x, .ok y =>
    if h : x = y then isTrue (by rw [h]) else isFalse (by simp [h])
  | .error _, .ok _ => isFalse (by simp)
  | .ok _, .error _ => isFalse (by simp)

/-- `KeyRange::deserialize`: two `u16`-length-prefixed keys. -/
def keyRangeDeserialize (bytes : List Nat) :
    Except VError ((List Nat × List Nat) × List Nat) :=
  match readExact 2 bytes with
  | none => .error (.decode .io)
  | some (l1, r1) =>
    match readExact (fromBE l1) r1 with
    | none => .error (.decode .io)
    | some (kmin, r2) =>
      match readExact 2 r2 with
      | none => .error (.decode .io)
      | some (l2, r3) =>
        match readExact (fromBE l2) r3 with
        | none => .error (.decode .io)
        | some (kmax, r4) => .ok ((kmin, kmax), r4)

/-- `Metadata::deserialize`: magic check, three `u64` counters, the
compression tag byte, then the key range. -/
def metadataDeserialize (bytes : List Nat) : Except VError SegMetadata :=
  match readExact 8 bytes with
  | none => .error (.decode .io)
  | some (magic, r1) =>
    if magic ≠ METADATA_HEADER_MAGIC then
      .error (.decode (.invalidHeader "SegmentMetadata"))
    else
      match readExact 8 r1 with
      | none => .error (.decode .io)
      | some (ic, r2) =>
        match readExact 8 r2 with
        | none => .error (.decode .io)
        | some (cb, r3) =>
          match readExact 8 r3 with
          | none => .error (.decode .io)
          | some (ub, r4) =>
            match readExact 1 r4 with
            | none => .error (.decode .io)
            | some (tag, r5) =>
              if tag.headI = 0 then
                match keyRangeDeserialize r5 with
                | .error e => .error e
                | .ok (kr, _) =>
                  .ok ⟨fromBE ic, fromBE cb, fromBE ub, kr⟩
              else
                .error (.decode (.invalidTag "CompressionType" tag.headI))

/-- `SegmentFileTrailer::from_file` from `src/src/segment/trailer.rs`:
seek to `len − 256` (an I/O error if the file is shorter), read the
metadata pointer, skip the padding, check the trailer magic, then jump to
the metadata block and parse it.  Returns the metadata and pointer. -/
def trailerFromFile (file : List Nat) :
    Except VError (SegMetadata × Nat) :=
  if file.length < 256 then .error .io
  else if ((file.drop (file.length - 256)).drop 248).take 8 ≠ TRAILER_MAGIC
  then .error (.decode (.invalidHeader "SegmentTrailer"))
  else
    match metadataDeserialize
        (file.drop (fromBE ((file.drop (file.length - 256)).take 8))) with
    | .error e => .error e
    | .ok m => .ok (m, fromBE ((file.drop (file.length - 256)).take 8))

/-- `HashMap::insert` semantics on an association list: overwrite an
existing key, otherwise append. -/
def hmInsert (m : List (Nat × SegMetadata)) (id : Nat) (v : SegMetadata) :
    List (Nat × SegMetadata) :=
  if (List.lookup id m).isSome then
    m.map (fun p => if p.1 = id then (id, v) else p)
  else m ++ [(id, v)]

/-- The per-id loop of `SegmentManifest::recover`: open each listed
segment file (`fs` maps ids to file bytes, `none` = file cannot be
opened), read its trailer, and insert the segment into the map.  Errors
propagate via `?`. -/
def recoverLoop (fs : Nat → Option (List Nat)) :
    List Nat → List (Nat × SegMetadata) →
    Except VError (List (Nat × SegMetadata))
  | [], m => .ok m
  | id :: rest, m =>
    match fs id with
    | none => .error .io
    | some file =>
      match trailerFromFile file with
      | .error e => .error e
      | .ok (meta, _) => recoverLoop fs rest (hmInsert m id meta)

/-- `SegmentManifest::recover` (map-building part), for a manifest file
listing `ids`: run the loop, then return `Unrecoverable` iff the
resulting map is smaller than the id list. -/
def recoverSegments (ids : List Nat) (fs : Nat → Option (List Nat)) :
    Except VError (List (Nat × SegMetadata)) :=
  match recoverLoop fs ids [] with
  | .error e => .error e
  | .ok m =>
    if m.length < ids.length then .error .unrecoverable else .ok m

set_option maxRecDepth 16384 in
/-- C7 counterexample: a manifest listing segment id 0 whose file cannot
be opened makes `recover` return the propagated `Io` error, and a file
whose trailer magic is malformed (256 zero bytes) makes it return the
`InvalidHeader("SegmentTrailer")` decode error — in neither case
`Unrecoverable`. -/
theorem C7_recover_not_unrecoverable :
    recoverSegments [0] (fun _ => none) = .error .io ∧
    recoverSegments [0] (fun _ => some (List.replicate 256 0)) =
      .error (.decode (.invalidHeader "SegmentTrailer")) ∧
    (Except.error .io :
      Except VError (List (Nat × SegMetadata))) ≠ .error .unrecoverable ∧
    (Except.error (.decode (.invalidHeader "SegmentTrailer")) :
      Except VError (List (Nat × SegMetadata))) ≠ .error .unrecoverable := by
  refine ⟨by decide, by decide, by decide, by decide⟩

theorem keyRange_error_kind (b : List Nat) (e : VError)
    (h : keyRangeDeserialize b = .error e) : ∃ d, e = .decode d := by
  unfold keyRangeDeserialize at h
  repeat' split at h
  all_goals cases h
  all_goals exact ⟨_, rfl⟩

theorem metadataDeserialize_error_kind (b : List Nat) (e : VError)
    (h : metadataDeserialize b = .error e) : ∃ d, e = .decode d := by
  unfold metadataDeserialize at h
  repeat' split at h
  all_goals cases h
  all_goals first
    | exact ⟨_, rfl⟩
    | exact keyRange_error_kind _ _ (by assumption)

theorem trailerFromFile_error_kind (f : List Nat) (e : VError)
    (h : trailerFromFile f = .error e) :
    e = .io ∨ ∃ d, e = .decode d := by
  unfold trailerFromFile at h
  repeat' split at h
  all_goals cases h
  · exact Or.inl rfl
  · exact Or.inr ⟨_, rfl⟩
  · exact Or.inr (metadataDeserialize_error_kind _ _ (by assumption))

theorem lookup_eq_none_of_not_mem (m : List (Nat × SegMetadata))
    (id : Nat) (h : id ∉ m.map Prod.fst) : List.lookup id m = none := by
  induction m with
  | nil => rfl
  | cons p rest ih =>
    obtain ⟨k, v⟩ := p
    simp only [List.map_cons, List.mem_cons] at h
    push_neg at h
    have hbeq : (id == k) = false := beq_eq_false_iff_ne.mpr h.1
    simp only [List.lookup, hbeq]
    exact ih h.2

theorem hmInsert_fresh (m : List (Nat × SegMetadata)) (id : Nat)
    (v : SegMetadata) (h : id ∉ m.map Prod.fst) :
    (hmInsert m id v).length = m.length + 1 ∧
    (hmInsert m id v).map Prod.fst = m.map Prod.fst ++ [id] := by
  unfold hmInsert
  rw [lookup_eq_none_of_not_mem m id h]
  simp

theorem recoverLoop_ok_loads (fs : Nat → Option (List Nat))
    (ids : List Nat) (m m' : List (Nat × SegMetadata))
    (h : recoverLoop fs ids m = .ok m') :
    ∀ id ∈ ids, ∃ file mt p, fs id = some file ∧
      trailerFromFile file = .ok (mt, p) := by
  induction ids generalizing m with
  | nil => simp
  | cons id rest ih =>
    unfold recoverLoop at h
    split at h
    · cases h
    · rename_i file hfs
      split at h
      · cases h
      · rename_i meta p htr
        intro i hi
        rcases List.mem_cons.mp hi with hEq | hMem
        · subst hEq
          exact ⟨file, meta, p, hfs, htr⟩
        · exact ih _ h i hMem

theorem recoverLoop_error_kind (fs : Nat → Option (List Nat))
    (ids : List Nat) (m : List (Nat × SegMetadata)) (e : VError)
    (h : recoverLoop fs ids m = .error e) :
    e = .io ∨ ∃ d, e = .decode d := by
  induction ids generalizing m with
  | nil => cases h
  | cons id rest ih =>
    unfold recoverLoop at h
    split at h
    · cases h
      exact Or.inl rfl
    · rename_i file hfs
      split at h
      · rename_i e2 htr
        cases h
        exact trailerFromFile_error_kind _ _ htr
      · exact ih _ h

theorem recoverLoop_ok_length (fs : Nat → Option (List Nat))
    (ids : List Nat) (m m' : List (Nat × SegMetadata))
    (hnd : ids.Nodup) (hfresh : ∀ id ∈ ids, id ∉ m.map Prod.fst)
    (h : recoverLoop fs ids m = .ok m') :
    m'.length = m.length + ids.length := by
  induction ids generalizing m with
  | nil => cases h; simp
  | cons id rest ih =>
    unfold recoverLoop at h
    split at h
    · cases h
    · rename_i file hfs
      split at h
      · cases h
      · rename_i meta p htr
        have hidf : id ∉ m.map Prod.fst :=
          hfresh id (List.mem_cons_self id rest)
        obtain ⟨hlen, hkeys⟩ := hmInsert_fresh m id meta hidf
        have hnd2 := List.nodup_cons.mp hnd
        have hfresh2 : ∀ i ∈ rest, i ∉ (hmInsert m id meta).map Prod.fst := by
          intro i hi
          rw [hkeys]
          simp only [List.mem_append, List.mem_singleton]
          push_neg
          refine ⟨hfresh i (List.mem_cons_of_mem id hi), ?_⟩
          intro hEq
          exact hnd2.1 (hEq ▸ hi)
        have hrec := ih _ hnd2.2 hfresh2 h
        rw [hrec, hlen]
        simp only [List.length_cons]
        omega

/-- C7 amended: `recover` *propagates* the underlying error when a listed
segment cannot be loaded — `Io` when the file cannot be opened, the decode
error when its trailer or metadata is malformed — and returns
`Unrecoverable` only when every listed file loads fine but the manifest id
list contains duplicates (the recovered map is then smaller than the
list). -/
theorem C7_recover_error_propagation (ids : List Nat)
    (fs : Nat → Option (List Nat)) :
    (∀ id rest, ids = id :: rest → fs id = none →
      recoverSegments ids fs = .error .io) ∧
    (∀ id rest file e, ids = id :: rest → fs id = some file →
      trailerFromFile file = .error e →
      recoverSegments ids fs = .error e) ∧
    (recoverSegments ids fs = .error .unrecoverable →
      (∀ id ∈ ids, ∃ file mt p, fs id = some file ∧
        trailerFromFile file = .ok (mt, p)) ∧ ¬ ids.Nodup) := by
  refine ⟨?_, ?_, ?_⟩
  · intro id rest hids hfs
    subst hids
    have hl : recoverLoop fs (id :: rest) [] = .error .io := by
      simp only [recoverLoop, hfs]
    simp only [recoverSegments, hl]
  · intro id rest file e hids hfs htr
    subst hids
    have hl : recoverLoop fs (id :: rest) [] = .error e := by
      simp only [recoverLoop, hfs, htr]
    simp only [recoverSegments, hl]
  · intro h
    unfold recoverSegments at h
    cases hl : recoverLoop fs ids [] with
    | error e =>
      rw [hl] at h
      cases h
      rcases recoverLoop_error_kind fs ids [] _ hl with h1 | ⟨d, h2⟩
      · cases h1
      · cases h2
    | ok m =>
      have h2 : (if m.length < ids.length then
          (Except.error VError.unrecoverable :
            Except VError (List (Nat × SegMetadata)))
          else .ok m) = .error .unrecoverable := by
        rw [hl] at h
        exact h
      by_cases hc : m.length < ids.length
      · refine ⟨recoverLoop_ok_loads fs ids [] m hl, ?_⟩
        intro hnd
        have hlen := recoverLoop_ok_length fs ids [] m hnd (by simp) hl
        simp only [List.length_nil] at hlen
        omega
      · rw [if_neg hc] at h2
        cases h2

/-- Witness for C7's amended theorem: a manifest listing the missing
segment id 0 propagates the `Io` error. -/
theorem C7_recover_error_propagation_witness :
    recoverSegments [0] (fun _ => none) = .error .io :=
  (C7_recover_error_propagation [0] (fun _ => none)).1 0 [] rfl rfl

/-! ## The multi-writer present in `src/src/segment/multi_writer.rs`

Like `writer.rs`, this file is from the historical era of the crate: it
owns the index writer, stages a value handle (`insert_indirect`) before
delegating to `Writer::write` when the value is at least
`blob_separation_size` bytes long, and computes the staged offset as
`active.offset() + size_of::<u16>() + key.len()`. -/

/-- `Metadata::serialize` (`src/src/segment/meta.rs`), compression tag 0. -/
def metadataSerialize (m : SegMetadata) : List Nat :=
  METADATA_HEADER_MAGIC ++ beBytes 8 m.item_count ++
    beBytes 8 m.compressed_bytes ++ beBytes 8 m.total_uncompressed_bytes ++
    [0] ++ beBytes 2 m.key_range.1.length ++ m.key_range.1 ++
    beBytes 2 m.key_range.2.length ++ m.key_range.2

/-- `SegmentFileTrailer::serialize` (`src/src/segment/trailer.rs`): the
metadata pointer, zero padding up to 248 bytes, then the trailer magic. -/
def trailerSerialize (ptr : Nat) : List Nat :=
  beBytes 8 ptr ++ List.replicate (256 - 8 - 8 - 8) 0 ++ TRAILER_MAGIC

/-- `Writer::flush`: append the serialized metadata block (at the current
stream position) and the trailer pointing back at it. -/
def SegWriter.flush (w : SegWriter) : SegWriter :=
  { w with
      buf := w.buf ++
        metadataSerialize
          ⟨w.item_count, w.written_blob_bytes, w.uncompressed_bytes,
            (w.first_key.getD [], w.last_key.getD [])⟩ ++
        trailerSerialize w.buf.length }

structure MultiWriter where
  target_size : Nat
  writers : List SegWriter
  staged : List (List Nat × ValueHandle × Nat)
  direct : List (List Nat × List Nat)
  next_id : Nat
  blob_separation_size : Nat
deriving Repr, DecidableEq

/-- A fresh multi-writer (`MultiWriter::new` plus the
`blob_separation_size` builder); one writer with the first generated id. -/
def MultiWriter.make (first_id target sep : Nat) : MultiWriter :=
  ⟨target, [SegWriter.make first_id], [], [], first_id + 1, sep⟩

/-- `get_active_writer`: the last writer in the chain (the source
`expect`s non-emptiness; a default is returned in the unreachable empty
case). -/
def MultiWriter.active (mw : MultiWriter) : SegWriter :=
  mw.writers.getLast?.getD (SegWriter.make 0)

/-- `MultiWriter::offset(key)`: the active writer's offset plus
`size_of::<u16>() + key.len()` — "point to the value record, not the
key". -/
def MultiWriter.offsetOf (mw : MultiWriter) (key : List Nat) : Nat :=
  mw.active.offset + 2 + key.length

/-- `MultiWriter::segment_id()`. -/
def MultiWriter.segIdOf (mw : MultiWriter) : Nat :=
  mw.active.segment_id

/-- `MultiWriter::write`: if the value reaches `blob_separation_size`,
stage `(key, (segment_id, offset(key)), value_len)` with the index writer
and append the record via `Writer::write`; otherwise record the pair as
a direct insertion.  Afterwards flush-and-rotate when the active writer's
offset reached `target_size`. -/
def MultiWriter.write (mw : MultiWriter) (key value : List Nat) :
    Option (MultiWriter × Nat) :=
  let step :=
    if value.length ≥ mw.blob_separation_size then
      match mw.active.write key value with
      | none => none
      | some (w', bw) =>
        some
          ({ mw with
              staged := mw.staged ++
                [(key, ⟨mw.segIdOf, mw.offsetOf key⟩, value.length)]
              writers := mw.writers.dropLast ++ [w'] }, bw)
    else
      some ({ mw with direct := mw.direct ++ [(key, value)] }, 0)
  match step with
  | none => none
  | some (mw1, bw) =>
    if mw1.active.offset ≥ mw1.target_size then
      some
        ({ mw1 with
            writers := (mw1.writers.dropLast ++ [mw1.active.flush]) ++
              [SegWriter.make mw1.next_id]
            next_id := mw1.next_id + 1 }, bw)
    else some (mw1, bw)

/-- `MultiWriter::finish`: flush the active writer if it has items. -/
def MultiWriter.finish (mw : MultiWriter) : MultiWriter :=
  if mw.active.item_count > 0 then
    { mw with writers := mw.writers.dropLast ++ [mw.active.flush] }
  else mw

/-- `SegmentManifest::register`: writers that produced no records are
discarded; the remaining ones become readable segments (id ↦ file
bytes). -/
def registerFiles (writers : List SegWriter) : ReadManifest :=
  (writers.filter (fun w => w.item_count ≠ 0)).map
    (fun w => (w.segment_id, w.buf))

/-- The write-then-read pipeline exactly as the sources under `src/`
compose it: one write of key `"k"`, value `"v"` through the multi-writer
(separation threshold 0, so the value is staged indirectly), `finish`,
`register`, then `get` on the staged handle. -/
def c1WriteStep : Option (MultiWriter × Nat) :=
  MultiWriter.write (MultiWriter.make 0 1000000 0) [107] [118]

/-- The result `get` produces for the staged handle in that pipeline. -/
def c1GetResult : Option (Except VError (Option (List Nat))) :=
  c1WriteStep.map fun p =>
    match p.1.staged with
    | [(_, vh, _)] =>
      (getWithPrefetch (registerFiles p.1.finish.writers) [] vh 0).1
    | _ => .error .io

set_option maxRecDepth 32768 in
/-- C1 (code bug): the blended sources break the write/read round-trip.
The staged handle for `("k", "v")` is `(0, 3)`; the writer's record is
`[keylen ‖ key ‖ crc32 ‖ vallen ‖ val]` with no record magic, while `get`
parses `[magic ‖ checksum ‖ keylen ‖ key ‖ vallen ‖ val]` from the
handle's offset, so it reads the CRC bytes `[107, 100, 59, 132]` where it
expects a record magic and returns `InvalidHeader("Blob")` instead of
`Ok(Some("v"))`. -/
theorem C1_roundtrip_broken :
    c1WriteStep.map (fun p => (p.1.staged, p.2)) =
      some ([([107], ⟨0, 3⟩, 1)], 1) ∧
    c1GetResult = some (.error (.decode (.invalidHeader "Blob"))) ∧
    c1GetResult ≠ some (.ok (some [118])) := by
  refine ⟨by decide, by decide, by decide⟩

/-- C5 counterexample: for the first record, key `"k"`, value `"v"`, the
staged handle offset is 3 = record start + key-length prefix + key — the
position of the record's CRC field — while the record's value length
prefix begins at 7; the two differ. -/
theorem C5_offset_is_checksum_not_vallen :
    c1WriteStep.map (fun p => p.1.staged.map (fun s => s.2.1.offset)) =
      some [3] ∧
    ((writerRecord [107] [118]).drop 3).take 4 = beBytes 4 (crc32 [118]) ∧
    ((writerRecord [107] [118]).drop 7).take 4 = beBytes 4 1 ∧
    (3 : Nat) ≠ 7 := by
  refine ⟨by decide, by decide, by decide, by decide⟩

theorem writerRecord_drop (key value : List Nat) :
    (writerRecord key value).drop (2 + key.length) =
      beBytes 4 (crc32 value) ++ beBytes 4 value.length ++ value := by
  have hl : (beBytes 2 key.length ++ key).length = 2 + key.length := by
    simp [beBytes_length]
  have h2 : writerRecord key value = (beBytes 2 key.length ++ key) ++
      (beBytes 4 (crc32 value) ++ beBytes 4 value.length ++ value) := by
    simp [writerRecord, List.append_assoc]
  rw [h2, ← hl, List.drop_left]

/-- C5 amended: for every record staged by the multi-writer, the handle
offset equals the record's start plus `2 + key.len()` — that is, it points
just past the key and its length prefix, at the record's CRC field — and
the value length prefix sits 4 bytes further on. -/
theorem C5_handle_offset_semantics (mw : MultiWriter) (key value : List Nat)
    (hsep : value.length ≥ mw.blob_separation_size)
    (hk : key ≠ []) (hk2 : key.length ≤ 65535)
    (hv : value.length ≤ 2 ^ 32 - 1) :
    ∃ mw1, (MultiWriter.write mw key value).map Prod.fst = some mw1 ∧
      ∃ vh : ValueHandle,
        mw1.staged = mw.staged ++ [(key, vh, value.length)] ∧
        vh.segment_id = mw.active.segment_id ∧
        vh.offset = mw.active.offset + 2 + key.length ∧
        (writerRecord key value).drop (2 + key.length) =
          beBytes 4 (crc32 value) ++ beBytes 4 value.length ++ value ∧
        vh.offset + 4 = mw.active.offset + (2 + key.length + 4) := by
  obtain ⟨w', hw, -⟩ :=
    (C9_write_validation mw.active key value).2 hk hk2 hv
  unfold MultiWriter.write
  rw [if_pos hsep, hw]
  simp only
  split
  · refine ⟨_, rfl, ⟨mw.segIdOf, mw.offsetOf key⟩, rfl, rfl, rfl, ?_, ?_⟩
    · simpa using writerRecord_drop key value
    · simp [MultiWriter.offsetOf]
      omega
  · refine ⟨_, rfl, ⟨mw.segIdOf, mw.offsetOf key⟩, rfl, rfl, rfl, ?_, ?_⟩
    · simpa using writerRecord_drop key value
    · simp [MultiWriter.offsetOf]
      omega

/-- Witness for C5's amended theorem at the concrete first write. -/
theorem C5_handle_offset_semantics_witness :
    ∃ mw1, (MultiWriter.write (MultiWriter.make 0 1000000 0)
        [107] [118]).map Prod.fst = some mw1 ∧
      ∃ vh : ValueHandle,
        mw1.staged = [([107], vh, 1)] ∧
        vh.segment_id = 0 ∧ vh.offset = 3 := by
  obtain ⟨mw1, h1, vh, h2, h3, h4, -, -⟩ :=
    C5_handle_offset_semantics (MultiWriter.make 0 1000000 0) [107] [118]
      (by decide) (by decide) (by decide) (by decide)
  exact ⟨mw1, h1, vh, by simpa using h2, by simpa using h3,
    by simpa using h4⟩

/-! ## Liveness scan (`src/src/scanner.rs`,
`src/src/value_log.rs::consume_scan_result`, `src/src/segment/mod.rs`) -/

/-- `GcStats` (`src/src/segment/gc_stats.rs`): the two per-segment
counters, plain values here (the atomics only matter cross-thread). -/
structure GcStatsV where
  stale_items : Nat
  stale_bytes : Nat
deriving Repr, DecidableEq

/-- A `Segment` as the GC paths see it (`src/src/segment/mod.rs`): id,
the persisted metadata counters, and the runtime GC stats. -/
structure GSegment where
  id : Nat
  item_count : Nat
  total_uncompressed_bytes : Nat
  compressed_bytes : Nat
  gc : GcStatsV
deriving Repr, DecidableEq

/-- `SegmentCounter` from `src/src/scanner.rs`. -/
structure SegmentCounter where
  size : Nat
  item_count : Nat
deriving Repr, DecidableEq

/-- The scanner's `SizeMap`: a `BTreeMap<SegmentId, SegmentCounter>`,
modelled as an association list sorted by id. -/
def SizeMap : Type := List (Nat × SegmentCounter)

/-- `BTreeMap::insert` (overwrite) keeping the list sorted. -/
def smInsert (m : List (Nat × SegmentCounter)) (id : Nat)
    (c : SegmentCounter) : List (Nat × SegmentCounter) :=
  match m with
  | [] => [(id, c)]
  | (k, v) :: rest =>
    if id < k then (id, c) :: (k, v) :: rest
    else if id = k then (id, c) :: rest
    else (k, v) :: smInsert rest id c

/-- `entry(id).and_modify(add).or_insert(SegmentCounter{size, 1})` from
`Scanner::scan`. -/
def smEntryModify (m : List (Nat × SegmentCounter)) (id : Nat)
    (size : Nat) : List (Nat × SegmentCounter) :=
  match m with
  | [] => [(id, ⟨size, 1⟩)]
  | (k, v) :: rest =>
    if id < k then (id, ⟨size, 1⟩) :: (k, v) :: rest
    else if id = k then (k, ⟨v.size + size, v.item_count + 1⟩) :: rest
    else (k, v) :: smEntryModify rest id size

/-- `Scanner::new`: seed the size map with a zero counter for every
snapshotted segment id. -/
def scannerNew (ids : List Nat) : List (Nat × SegmentCounter) :=
  ids.foldl (fun m id => smInsert m id ⟨0, 0⟩) []

/-- `Scanner::scan`: fold the supplied `(handle, size)` pairs into the
size map. -/
def scannerScan (m : List (Nat × SegmentCounter))
    (input : List (ValueHandle × Nat)) : List (Nat × SegmentCounter) :=
  input.foldl (fun m hv => smEntryModify m hv.1.segment_id hv.2) m

/-- `GcReport` (`src/src/gc/report.rs` is not in this corpus; the fields
are those `consume_scan_result` fills). -/
structure GcReport where
  segment_count : Nat
  stale_segment_count : Nat
  stale_bytes : Nat
  total_bytes : Nat
  stale_blobs : Nat
  total_blobs : Nat
deriving Repr, DecidableEq

/-- Update the segment with the given id (the manifest holds shared
descriptors; setting GC stats mutates in place). -/
def updateSeg (m : List GSegment) (id : Nat) (f : GSegment → GSegment) :
    List GSegment :=
  m.map (fun s => if s.id = id then f s else s)

/-- `Segment::mark_as_stale` (`src/src/segment/mod.rs`) applied through
`ValueLog::mark_as_stale`, which skips ids absent from the manifest. -/
def markAsStale (m : List GSegment) (id : Nat) : List GSegment :=
  updateSeg m id
    (fun s => { s with gc := ⟨s.item_count, s.total_uncompressed_bytes⟩ })

/-- `ValueLog::consume_scan_result`: walk the size map; every id is
looked up in the manifest (`expect("segment should exist")` — `none`
models that panic); a positive counter sets the stats to
`total − observed`, a zero counter marks the segment fully stale. -/
def consumeScan :
    List GSegment → List (Nat × SegmentCounter) → GcReport →
    Option (List GSegment × GcReport)
  | segs, [], rpt => some (segs, rpt)
  | segs, (id, c) :: rest, rpt =>
    match segs.find? (fun s => s.id = id) with
    | none => none
    | some seg =>
      let rpt1 := { rpt with
        total_bytes := rpt.total_bytes + seg.total_uncompressed_bytes
        total_blobs := rpt.total_blobs + seg.item_count }
      if c.item_count > 0 then
        consumeScan
          (updateSeg segs id (fun s =>
            { s with gc := ⟨s.item_count - c.item_count,
                s.total_uncompressed_bytes - c.size⟩ }))
          rest
          { rpt1 with
              stale_bytes := rpt1.stale_bytes +
                (seg.total_uncompressed_bytes - c.size)
              stale_blobs := rpt1.stale_blobs +
                (seg.item_count - c.item_count) }
      else
        consumeScan (markAsStale segs id) rest
          { rpt1 with
              stale_segment_count := rpt1.stale_segment_count + 1
              stale_bytes := rpt1.stale_bytes + seg.total_uncompressed_bytes
              stale_blobs := rpt1.stale_blobs + seg.item_count }

/-- `ValueLog::scan_for_stats` minus the locking: seed with the
snapshot, scan the input, and consume the resulting size map. -/
def scanPipeline (segs : List GSegment) (snapshot : List Nat)
    (input : List (ValueHandle × Nat)) :
    Option (List GSegment × GcReport) :=
  consumeScan segs (scannerScan (scannerNew snapshot) input)
    ⟨segs.length, 0, 0, 0, 0, 0⟩

/-- Observed bytes for a segment id in a scan input. -/
def obsSize (input : List (ValueHandle × Nat)) (id : Nat) : Nat :=
  ((input.filter (fun p => p.1.segment_id = id)).map (fun p => p.2)).sum

/-- Observed handle count for a segment id in a scan input. -/
def obsCount (input : List (ValueHandle × Nat)) (id : Nat) : Nat :=
  (input.filter (fun p => p.1.segment_id = id)).length

/-- C3 counterexample: manifest `{0, 1}`, snapshot `[0]` (taken before
segment 1 was registered), scan input holding one handle into segment 1.
The scan sets segment 1's stale stats to `(1, 6)` — a segment id *not* in
the snapshot is touched, because `Scanner::scan` creates counters for
unseen ids (`or_insert_with`) and `consume_scan_result` walks every
counter. -/
theorem C3_non_snapshot_id_touched :
    (scanPipeline
        [⟨0, 2, 10, 10, ⟨0, 0⟩⟩, ⟨1, 2, 10, 10, ⟨0, 0⟩⟩] [0]
        [(⟨1, 0⟩, 4)]).map (fun r => r.1.map (fun s => s.gc)) =
      some [⟨2, 10⟩, ⟨1, 6⟩] ∧
    (⟨1, 6⟩ : GcStatsV) ≠ ⟨0, 0⟩ := by
  refine ⟨by decide, by decide⟩

/-- Lookup in a size map (`BTreeMap` access, first match). -/
def smLookup : List (Nat × SegmentCounter) → Nat → Option SegmentCounter
  | [], _ => none
  | (k, v) :: rest, id => if id = k then some v else smLookup rest id

/-- Key-sortedness invariant of the `BTreeMap` model. -/
def SMSorted (m : List (Nat × SegmentCounter)) : Prop :=
  m.Pairwise (fun a b => a.1 < b.1)

theorem smInsert_mem (m : List (Nat × SegmentCounter)) (id : Nat)
    (c : SegmentCounter) :
    ∀ x ∈ smInsert m id c, x.1 = id ∨ x ∈ m := by
  induction m with
  | nil => simp [smInsert]
  | cons p rest ih =>
    obtain ⟨k, v⟩ := p
    intro x hx
    unfold smInsert at hx
    split at hx
    · simp only [List.mem_cons] at hx
      rcases hx with h | h | h
      · exact Or.inl (by rw [h])
      · exact Or.inr (by rw [h]; exact List.mem_cons_self _ _)
      · exact Or.inr (List.mem_cons_of_mem _ h)
    · split at hx
      · simp only [List.mem_cons] at hx
        rcases hx with h | h
        · exact Or.inl (by rw [h])
        · exact Or.inr (List.mem_cons_of_mem _ h)
      · simp only [List.mem_cons] at hx
        rcases hx with h | h
        · exact Or.inr (by rw [h]; exact List.mem_cons_self _ _)
        · rcases ih x h with h2 | h2
          · exact Or.inl h2
          · exact Or.inr (List.mem_cons_of_mem _ h2)

theorem smEntryModify_mem (m : List (Nat × SegmentCounter)) (id size : Nat) :
    ∀ x ∈ smEntryModify m id size, x.1 = id ∨ x ∈ m := by
  induction m with
  | nil => simp [smEntryModify]
  | cons p rest ih =>
    obtain ⟨k, v⟩ := p
    intro x hx
    unfold smEntryModify at hx
    split at hx
    · simp only [List.mem_cons] at hx
      rcases hx with h | h | h
      · exact Or.inl (by rw [h])
      · exact Or.inr (by rw [h]; exact List.mem_cons_self _ _)
      · exact Or.inr (List.mem_cons_of_mem _ h)
    · split at hx
      · simp only [List.mem_cons] at hx
        rcases hx with h | h
        · rename_i hlt hk
          exact Or.inl (by rw [h]; exact hk.symm)
        · exact Or.inr (List.mem_cons_of_mem _ h)
      · simp only [List.mem_cons] at hx
        rcases hx with h | h
        · exact Or.inr (by rw [h]; exact List.mem_cons_self _ _)
        · rcases ih x h with h2 | h2
          · exact Or.inl h2
          · exact Or.inr (List.mem_cons_of_mem _ h2)

theorem smInsert_sorted (m : List (Nat × SegmentCounter)) (id : Nat)
    (c : SegmentCounter) (h : SMSorted m) : SMSorted (smInsert m id c) := by
  induction m with
  | nil => simp [smInsert, SMSorted]
  | cons p rest ih =>
    obtain ⟨k, v⟩ := p
    have hrest : SMSorted rest := (List.pairwise_cons.mp h).2
    have hhead : ∀ x ∈ rest, k < x.1 := (List.pairwise_cons.mp h).1
    unfold smInsert
    split
    · rename_i hlt
      refine List.pairwise_cons.mpr ⟨?_, h⟩
      intro x hx
      rcases List.mem_cons.mp hx with hEq | hMem
      · rw [hEq]; exact hlt
      · exact hlt.trans (hhead x hMem)
    · split
      · rename_i hlt hEq
        subst hEq
        exact List.pairwise_cons.mpr ⟨hhead, hrest⟩
      · rename_i hlt hne
        refine List.pairwise_cons.mpr ⟨?_, ih hrest⟩
        intro x hx
        rcases smInsert_mem rest id c x hx with h2 | h2
        · rw [h2]; omega
        · exact hhead x h2

theorem smEntryModify_sorted (m : List (Nat × SegmentCounter))
    (id size : Nat) (h : SMSorted m) : SMSorted (smEntryModify m id size) := by
  induction m with
  | nil => simp [smEntryModify, SMSorted]
  | cons p rest ih =>
    obtain ⟨k, v⟩ := p
    have hrest : SMSorted rest := (List.pairwise_cons.mp h).2
    have hhead : ∀ x ∈ rest, k < x.1 := (List.pairwise_cons.mp h).1
    unfold smEntryModify
    split
    · rename_i hlt
      refine List.pairwise_cons.mpr ⟨?_, h⟩
      intro x hx
      rcases List.mem_cons.mp hx with hEq | hMem
      · rw [hEq]; exact hlt
      · exact hlt.trans (hhead x hMem)
    · split
      · exact List.pairwise_cons.mpr ⟨hhead, hrest⟩
      · rename_i hlt hne
        refine List.pairwise_cons.mpr ⟨?_, ih hrest⟩
        intro x hx
        rcases smEntryModify_mem rest id size x hx with h2 | h2
        · rw [h2]; omega
        · exact hhead x h2

theorem smLookup_eq_none (m : List (Nat × SegmentCounter)) (id : Nat)
    (h : ∀ x ∈ m, id ≠ x.1) : smLookup m id = none := by
  induction m with
  | nil => rfl
  | cons p rest ih =>
    obtain ⟨k, v⟩ := p
    unfold smLookup
    rw [if_neg (h (k, v) (List.mem_cons_self _ _))]
    exact ih (fun x hx => h x (List.mem_cons_of_mem _ hx))

theorem smLookup_smEntryModify (m : List (Nat × SegmentCounter))
    (id size j : Nat) (hs : SMSorted m) :
    smLookup (smEntryModify m id size) j =
      if j = id then
        match smLookup m id with
        | some c => some ⟨c.size + size, c.item_count + 1⟩
        | none => some ⟨size, 1⟩
      else smLookup m j := by
  induction m with
  | nil =>
    unfold smEntryModify smLookup
    split <;> simp_all [smLookup]
  | cons p rest ih =>
    obtain ⟨k, v⟩ := p
    have hrest : SMSorted rest := (List.pairwise_cons.mp hs).2
    have hhead : ∀ x ∈ rest, k < x.1 := (List.pairwise_cons.mp hs).1
    unfold smEntryModify
    split
    · rename_i hlt
      have hmn : smLookup ((k, v) :: rest) id = none := by
        apply smLookup_eq_none
        intro x hx
        rcases List.mem_cons.mp hx with hEq | hMem
        · rw [hEq]; omega
        · have := hhead x hMem; omega
      by_cases hj : j = id
      · subst hj
        rw [if_pos rfl, hmn]
        simp [smLookup]
      · rw [if_neg hj]
        simp only [smLookup, if_neg hj]
    · split
      · rename_i hlt hEq
        subst hEq
        by_cases hj : j = id
        · subst hj
          simp [smLookup]
        · simp [smLookup, hj]
      · rename_i hlt hne
        by_cases hj : j = k
        · subst hj
          simp only [smLookup, if_pos rfl]
          rw [if_neg (show ¬(j = id) by omega)]
          simp
        · simp only [smLookup, if_neg hj]
          rw [ih hrest]
          have hik : ¬(id = k) := by omega
          by_cases hji : j = id
          · subst hji
            simp [smLookup, hik]
          · simp [hji]

theorem smLookup_smInsert (m : List (Nat × SegmentCounter)) (id : Nat)
    (c : SegmentCounter) (j : Nat) :
    smLookup (smInsert m id c) j = if j = id then some c else smLookup m j := by
  induction m with
  | nil =>
    unfold smInsert smLookup
    rfl
  | cons p rest ih =>
    obtain ⟨k, v⟩ := p
    unfold smInsert
    split
    · by_cases hj : j = id
      · subst hj; simp [smLookup]
      · simp [smLookup, hj]
    · split
      · rename_i hlt hEq
        subst hEq
        by_cases hj : j = id
        · subst hj; simp [smLookup]
        · simp [smLookup, hj]
      · rename_i hlt hne
        by_cases hj : j = k
        · subst hj
          simp only [smLookup, if_pos rfl]
          rw [if_neg (show ¬(j = id) by omega)]
          simp
        · simp only [smLookup, if_neg hj]
          exact ih

theorem scannerNew_aux (ids : List Nat) (m0 : List (Nat × SegmentCounter))
    (hs : SMSorted m0) :
    SMSorted (ids.foldl (fun m id => smInsert m id ⟨0, 0⟩) m0) ∧
    ∀ j, smLookup (ids.foldl (fun m id => smInsert m id ⟨0, 0⟩) m0) j =
      if j ∈ ids then some ⟨0, 0⟩ else smLookup m0 j := by
  induction ids generalizing m0 with
  | nil => exact ⟨hs, fun j => by simp⟩
  | cons id rest ih =>
    obtain ⟨ihs, ihl⟩ := ih (smInsert m0 id ⟨0, 0⟩) (smInsert_sorted m0 id _ hs)
    refine ⟨ihs, fun j => ?_⟩
    rw [List.foldl_cons] at *
    rw [ihl j, smLookup_smInsert]
    by_cases h1 : j ∈ rest
    · simp [h1]
    · by_cases h2 : j = id
      · subst h2; simp [h1]
      · simp [h1, h2]

theorem obs_cons (p : ValueHandle × Nat) (rest : List (ValueHandle × Nat))
    (j : Nat) :
    obsSize (p :: rest) j =
      (if p.1.segment_id = j then p.2 else 0) + obsSize rest j ∧
    obsCount (p :: rest) j =
      (if p.1.segment_id = j then 1 else 0) + obsCount rest j := by
  constructor <;>
    (by_cases h : p.1.segment_id = j <;>
      simp [obsSize, obsCount, List.filter_cons, h] <;> try omega)

theorem scannerScan_sorted (input : List (ValueHandle × Nat))
    (m0 : List (Nat × SegmentCounter)) (hs : SMSorted m0) :
    SMSorted (scannerScan m0 input) := by
  induction input generalizing m0 with
  | nil => exact hs
  | cons p rest ih =>
    exact ih _ (smEntryModify_sorted m0 _ _ hs)

theorem scannerScan_lookup (input : List (ValueHandle × Nat))
    (m0 : List (Nat × SegmentCounter)) (hs : SMSorted m0) (j : Nat) :
    smLookup (scannerScan m0 input) j =
      match smLookup m0 j with
      | some c => some ⟨c.size + obsSize input j,
          c.item_count + obsCount input j⟩
      | none =>
        if 0 < obsCount input j then
          some ⟨obsSize input j, obsCount input j⟩
        else none := by
  induction input generalizing m0 with
  | nil =>
    cases h : smLookup m0 j with
    | none => simp [scannerScan, h, obsCount]
    | some c =>
      simp [scannerScan, h, obsSize, obsCount]
  | cons p rest ih =>
    have hstep := smLookup_smEntryModify m0 p.1.segment_id p.2 j hs
    have hrec := ih (smEntryModify m0 p.1.segment_id p.2)
      (smEntryModify_sorted m0 _ _ hs)
    obtain ⟨hos, hoc⟩ := obs_cons p rest j
    show smLookup (scannerScan (smEntryModify m0 p.1.segment_id p.2) rest) j
      = _
    rw [hrec, hstep, hos, hoc]
    by_cases hj : j = p.1.segment_id
    · rw [if_pos hj, if_pos hj.symm, if_pos hj.symm, ← hj]
      cases h : smLookup m0 j with
      | none =>
        simp only [h]
        rw [if_pos (by omega)]
      | some c =>
        simp only [h, Option.some.injEq, SegmentCounter.mk.injEq]
        constructor <;> omega
    · have hj2 : ¬(p.1.segment_id = j) := fun hc => hj hc.symm
      rw [if_neg hj, if_neg hj2, if_neg hj2]
      cases h : smLookup m0 j <;> simp [h]

theorem smLookup_mem_sorted (m : List (Nat × SegmentCounter))
    (p : Nat × SegmentCounter) (hs : SMSorted m) (hm : p ∈ m) :
    smLookup m p.1 = some p.2 := by
  induction m with
  | nil => cases hm
  | cons q rest ih =>
    obtain ⟨k, v⟩ := q
    have hhead : ∀ x ∈ rest, k < x.1 := (List.pairwise_cons.mp hs).1
    rcases List.mem_cons.mp hm with hEq | hMem
    · rw [hEq]
      simp [smLookup]
    · have : k < p.1 := hhead p hMem
      unfold smLookup
      rw [if_neg (by omega)]
      exact ih (List.pairwise_cons.mp hs).2 hMem

/-- The per-segment effect of consuming a size map: a positive counter
sets the stats to `total − observed`, a zero counter marks the segment
fully stale, an absent id leaves the segment untouched. -/
def applySM (sm : List (Nat × SegmentCounter)) (s : GSegment) : GSegment :=
  match smLookup sm s.id with
  | none => s
  | some c =>
    if 0 < c.item_count then
      { s with gc := ⟨s.item_count - c.item_count,
          s.total_uncompressed_bytes - c.size⟩ }
    else { s with gc := ⟨s.item_count, s.total_uncompressed_bytes⟩ }

theorem consumeScan_map (sm : List (Nat × SegmentCounter))
    (segs : List GSegment) (rpt : GcReport)
    (hkeys : ∀ p ∈ sm, ∃ s ∈ segs, s.id = p.1) (hs : SMSorted sm) :
    ∃ rpt2, consumeScan segs sm rpt =
      some (segs.map (applySM sm), rpt2) := by
  induction sm generalizing segs rpt with
  | nil =>
    refine ⟨rpt, ?_⟩
    unfold consumeScan
    congr 1
    congr 1
    conv_lhs => rw [← List.map_id segs]
    apply List.map_congr_left
    intro s hsm2
    rfl
  | cons q rest ih =>
    obtain ⟨id, c⟩ := q
    obtain ⟨seg, hsegmem, hsegid⟩ := hkeys (id, c) (List.mem_cons_self _ _)
    have hfs : (segs.find? (fun s => s.id = id)).isSome := by
      rw [List.find?_isSome]
      exact ⟨seg, hsegmem, by simp [hsegid]⟩
    obtain ⟨sg, hfind⟩ := Option.isSome_iff_exists.mp hfs
    have hhead : ∀ x ∈ rest, id < x.1 := (List.pairwise_cons.mp hs).1
    have hrest : SMSorted rest := (List.pairwise_cons.mp hs).2
    have hlnone : smLookup rest id = none :=
      smLookup_eq_none rest id (fun x hx => by have := hhead x hx; omega)
    have happ : ∀ x : GSegment, x.id = id → applySM rest x = x := by
      intro x hx
      unfold applySM
      rw [hx, hlnone]
    have happ2 : ∀ x : GSegment, x.id = id →
        applySM ((id, c) :: rest) x =
          (if 0 < c.item_count then
            { x with gc := ⟨x.item_count - c.item_count,
                x.total_uncompressed_bytes - c.size⟩ }
          else { x with gc := ⟨x.item_count, x.total_uncompressed_bytes⟩ }) := by
      intro x hx
      have hl2 : smLookup ((id, c) :: rest) x.id = some c := by
        show (if x.id = id then some c else smLookup rest x.id) = some c
        rw [if_pos hx]
      unfold applySM
      rw [hl2]
    have hlskip : ∀ j : Nat, ¬(j = id) →
        smLookup ((id, c) :: rest) j = smLookup rest j := by
      intro j hj
      show (if j = id then some c else smLookup rest j) = smLookup rest j
      rw [if_neg hj]
    have hids : ∀ (f : GSegment → GSegment),
        (∀ s, (f s).id = s.id) →
        ∀ p ∈ rest, ∃ s ∈ updateSeg segs id f, s.id = p.1 := by
      intro f hf p hp
      obtain ⟨s, hsm, hsid⟩ := hkeys p (List.mem_cons_of_mem _ hp)
      refine ⟨if s.id = id then f s else s, ?_, ?_⟩
      · exact List.mem_map.mpr ⟨s, hsm, rfl⟩
      · split
        · rw [hf s, hsid]
        · exact hsid
    have hmapeq : ∀ (f : GSegment → GSegment), (∀ s, (f s).id = s.id) →
        (∀ s : GSegment, s.id = id → f s = applySM ((id, c) :: rest) s) →
        (updateSeg segs id f).map (applySM rest) =
          segs.map (applySM ((id, c) :: rest)) := by
      intro f hf hmatch
      unfold updateSeg
      rw [List.map_map]
      apply List.map_congr_left
      intro s hsm2
      simp only [Function.comp_apply]
      by_cases hsid2 : s.id = id
      · rw [if_pos hsid2]
        rw [happ (f s) (by rw [hf s, hsid2])]
        exact hmatch s hsid2
      · rw [if_neg hsid2]
        unfold applySM
        rw [hlskip s.id hsid2]
    simp only [consumeScan, hfind]
    by_cases hc : c.item_count > 0
    · rw [if_pos hc]
      obtain ⟨rpt2, hrec⟩ := ih
        (updateSeg segs id (fun s =>
          { s with gc := ⟨s.item_count - c.item_count,
              s.total_uncompressed_bytes - c.size⟩ })) _
        (hids _ (fun s => rfl)) hrest
      refine ⟨rpt2, ?_⟩
      rw [hrec]
      refine congrArg (fun l => some (l, rpt2)) (hmapeq _ (fun s => rfl) ?_)
      intro s hsid2
      rw [happ2 s hsid2, if_pos hc]
    · rw [if_neg hc]
      obtain ⟨rpt2, hrec⟩ := ih
        (updateSeg segs id (fun s =>
          { s with gc := ⟨s.item_count, s.total_uncompressed_bytes⟩ })) _
        (hids _ (fun s => rfl)) hrest
      refine ⟨rpt2, ?_⟩
      show consumeScan (markAsStale segs id) rest _ = _
      have hms : markAsStale segs id = updateSeg segs id (fun s =>
          { s with gc := ⟨s.item_count, s.total_uncompressed_bytes⟩ }) := rfl
      rw [hms, hrec]
      refine congrArg (fun l => some (l, rpt2)) (hmapeq _ (fun s => rfl) ?_)
      intro s hsid2
      rw [happ2 s hsid2, if_neg hc]

/-- What the claim (as amended) predicts for one segment: observed
handles give `total − observed` stats, a snapshotted id with no observed
handles is marked fully stale, and a segment neither snapshotted nor
referenced by the input is untouched. -/
def expectedSeg (snapshot : List Nat) (input : List (ValueHandle × Nat))
    (s : GSegment) : GSegment :=
  if 0 < obsCount input s.id then
    { s with gc := ⟨s.item_count - obsCount input s.id,
        s.total_uncompressed_bytes - obsSize input s.id⟩ }
  else if s.id ∈ snapshot then
    { s with gc := ⟨s.item_count, s.total_uncompressed_bytes⟩ }
  else s

/-- C3 amended: after a scan over `input` with snapshot `snapshot`, a
segment with at least one observed handle gets
`stale = total − observed` (whether or not its id was snapshotted — the
scan creates counters for unseen ids too); a snapshotted segment with no
observed handle is marked fully stale; a segment neither snapshotted nor
referenced by the input is untouched.  The observed-size/count bounds
make the `u64` subtractions exact. -/
theorem C3_scan_accounting (segs : List GSegment) (snapshot : List Nat)
    (input : List (ValueHandle × Nat))
    (hsnap : ∀ id ∈ snapshot, id ∈ segs.map (fun s => s.id))
    (hin : ∀ p ∈ input, p.1.segment_id ∈ segs.map (fun s => s.id))
    (hbytes : ∀ s ∈ segs, obsSize input s.id ≤ s.total_uncompressed_bytes)
    (hitems : ∀ s ∈ segs, obsCount input s.id ≤ s.item_count) :
    ∃ rpt, scanPipeline segs snapshot input =
      some (segs.map (expectedSeg snapshot input), rpt) := by
  obtain ⟨hns, hnl⟩ := scannerNew_aux snapshot [] List.Pairwise.nil
  have hns2 : SMSorted (scannerNew snapshot) := hns
  have hnl2 : ∀ j, smLookup (scannerNew snapshot) j =
      if j ∈ snapshot then some ⟨0, 0⟩ else none := fun j => hnl j
  have hss : SMSorted (scannerScan (scannerNew snapshot) input) :=
    scannerScan_sorted input _ hns2
  have hlook : ∀ j,
      smLookup (scannerScan (scannerNew snapshot) input) j =
        if j ∈ snapshot then
          some ⟨obsSize input j, obsCount input j⟩
        else if 0 < obsCount input j then
          some ⟨obsSize input j, obsCount input j⟩
        else none := by
    intro j
    rw [scannerScan_lookup input (scannerNew snapshot) hns2 j, hnl2 j]
    by_cases hj : j ∈ snapshot
    · simp [hj]
    · simp [hj]
  have hkeys : ∀ p ∈ scannerScan (scannerNew snapshot) input,
      ∃ s ∈ segs, s.id = p.1 := by
    intro p hp
    have hl := smLookup_mem_sorted _ p hss hp
    rw [hlook p.1] at hl
    by_cases h1 : p.1 ∈ snapshot
    · exact List.mem_map.mp (hsnap p.1 h1)
    · rw [if_neg h1] at hl
      by_cases h2 : 0 < obsCount input p.1
      · obtain ⟨q, hq⟩ := List.exists_mem_of_length_pos h2
        have hq2 := List.mem_filter.mp hq
        have hqid : q.1.segment_id = p.1 := by simpa using hq2.2
        have := hin q hq2.1
        rw [hqid] at this
        exact List.mem_map.mp this
      · rw [if_neg h2] at hl
        cases hl
  obtain ⟨rpt2, hcons⟩ := consumeScan_map _ segs ⟨segs.length, 0, 0, 0, 0, 0⟩
    hkeys hss
  refine ⟨rpt2, ?_⟩
  show consumeScan segs (scannerScan (scannerNew snapshot) input) _ = _
  rw [hcons]
  refine congrArg (fun l => some (l, rpt2)) (List.map_congr_left ?_)
  intro s hsm
  by_cases h1 : s.id ∈ snapshot
  · have hl : smLookup (scannerScan (scannerNew snapshot) input) s.id =
        some ⟨obsSize input s.id, obsCount input s.id⟩ := by
      rw [hlook s.id]
      simp [h1]
    unfold applySM
    rw [hl]
    by_cases h2 : 0 < obsCount input s.id
    · simp [expectedSeg, h1, h2]
    · simp [expectedSeg, h1, h2]
  · by_cases h2 : 0 < obsCount input s.id
    · have hl : smLookup (scannerScan (scannerNew snapshot) input) s.id =
          some ⟨obsSize input s.id, obsCount input s.id⟩ := by
        rw [hlook s.id]
        simp [h1, h2]
      unfold applySM
      rw [hl]
      simp [expectedSeg, h1, h2]
    · have hl : smLookup (scannerScan (scannerNew snapshot) input) s.id =
          none := by
        rw [hlook s.id]
        simp [h1, h2]
      unfold applySM
      rw [hl]
      simp [expectedSeg, h1, h2]

/-- Witness for C3's amended theorem: two segments, both snapshotted;
segment 0 has two observed handles (6 bytes), segment 1 none — segment 0
gets `(0, 4)` stale stats, segment 1 is marked fully stale. -/
theorem C3_scan_accounting_witness :
    ∃ rpt, scanPipeline
        [⟨0, 2, 10, 7, ⟨0, 0⟩⟩, ⟨1, 3, 30, 9, ⟨0, 0⟩⟩] [0, 1]
        [(⟨0, 0⟩, 4), (⟨0, 11⟩, 2)] =
      some ([⟨0, 2, 10, 7, ⟨0, 4⟩⟩, ⟨1, 3, 30, 9, ⟨3, 30⟩⟩], rpt) := by
  obtain ⟨rpt, h⟩ := C3_scan_accounting
    [⟨0, 2, 10, 7, ⟨0, 0⟩⟩, ⟨1, 3, 30, 9, ⟨0, 0⟩⟩] [0, 1]
    [(⟨0, 0⟩, 4), (⟨0, 11⟩, 2)]
    (by decide) (by decide) (by decide) (by decide)
  refine ⟨rpt, ?_⟩
  rw [h]
  have hmap : List.map (expectedSeg [0, 1] [(⟨0, 0⟩, 4), (⟨0, 11⟩, 2)])
      [⟨0, 2, 10, 7, ⟨0, 0⟩⟩, ⟨1, 3, 30, 9, ⟨0, 0⟩⟩] =
      [⟨0, 2, 10, 7, ⟨0, 4⟩⟩, ⟨1, 3, 30, 9, ⟨3, 30⟩⟩] := by decide
  rw [hmap]

/-! ## SpaceAmp GC strategy (`src/src/gc/mod.rs`,
`src/src/segment/mod.rs::stale_ratio`, `src/src/manifest.rs` aggregates)

The `f32` arithmetic is modelled over `ℚ` (exact).  One deliberate
divergence: `stale_ratio` of a segment with `item_count = 0` and positive
`stale_items` is `+inf` in `f32` but `0` in `ℚ` (division by zero); such
segments cannot be registered (`register` skips writers with zero items),
and the theorems below assume positive item counts. -/

/-- `Segment::stale_ratio`: 0 when no dead items, else
`stale_items / item_count`. -/
def segStaleRatio (s : GSegment) : ℚ :=
  if s.gc.stale_items = 0 then 0
  else (s.gc.stale_items : ℚ) / (s.item_count : ℚ)

/-- `SegmentManifest::total_bytes`. -/
def totalBytes (segs : List GSegment) : Nat :=
  (segs.map (fun s => s.total_uncompressed_bytes)).sum

/-- `SegmentManifest::stale_bytes`. -/
def staleBytes (segs : List GSegment) : Nat :=
  (segs.map (fun s => s.gc.stale_bytes)).sum

/-- `SegmentManifest::space_amp`: 0 when empty or fully stale, else
`total / alive`. -/
def spaceAmp (segs : List GSegment) : ℚ :=
  if totalBytes segs = 0 then 0
  else if totalBytes segs - staleBytes segs = 0 then 0
  else (totalBytes segs : ℚ) /
    ((totalBytes segs - staleBytes segs : Nat) : ℚ)

/-- The comparator `b.stale_ratio().partial_cmp(&a.stale_ratio())` used
by `sort_by`: descending stale ratio (stable for ties, like Rust's
stable sort and `List.mergeSort`). -/
def ratioGe (a b : GSegment) : Bool :=
  decide (segStaleRatio b ≤ segStaleRatio a)

/-- The greedy selection loop of `SpaceAmpStrategy::pick`: subtract the
segment's stale bytes from the running totals, select it, and stop once
the projected space amplification reaches the target. -/
def pickLoop (target : ℚ) :
    List GSegment → Nat → Nat → List Nat → List Nat
  | [], _, _, sel => sel
  | seg :: rest, total, stale, sel =>
    let sb := seg.gc.stale_bytes
    let total2 := total - sb
    let stale2 := stale - sb
    let sel2 := sel ++ [seg.id]
    if (total2 : ℚ) / ((total2 : ℚ) - (stale2 : ℚ)) ≤ target then sel2
    else pickLoop target rest total2 stale2 sel2

/-- `SpaceAmpStrategy::pick`: nothing when the current space
amplification is strictly below the target; otherwise filter the
segments with positive stale ratio, sort them by stale ratio descending,
and greedily select.  The manifest list order models the (arbitrary)
`HashMap` iteration order. -/
def spaceAmpPick (target : ℚ) (segs : List GSegment) : List Nat :=
  if spaceAmp segs < target then []
  else
    pickLoop target
      ((segs.filter (fun s => 0 < segStaleRatio s)).mergeSort ratioGe)
      (totalBytes segs) (staleBytes segs) []

/-- C6 counterexample: one segment of 4 user bytes, half stale.  The
space amplification is exactly 2.0 (exact in `f32` as well); with target
2.0 the claim says "pick none", but the strict `<` guard sends the
strategy into the selection loop and it picks the segment. -/
theorem C6_equal_target_still_picks :
    spaceAmp [⟨0, 2, 4, 4, ⟨1, 2⟩⟩] = 2 ∧
    spaceAmpPick 2 [⟨0, 2, 4, 4, ⟨1, 2⟩⟩] = [0] ∧
    ([0] : List Nat) ≠ [] := by
  have h1 : spaceAmp [⟨0, 2, 4, 4, ⟨1, 2⟩⟩] = 2 := by
    norm_num [spaceAmp, totalBytes, staleBytes]
  refine ⟨h1, ?_, by decide⟩
  have hr : segStaleRatio ⟨0, 2, 4, 4, ⟨1, 2⟩⟩ = 1 / 2 := by
    norm_num [segStaleRatio]
  have hfil : List.filter (fun s => decide (0 < segStaleRatio s))
      [⟨0, 2, 4, 4, ⟨1, 2⟩⟩] = [⟨0, 2, 4, 4, ⟨1, 2⟩⟩] := by
    rw [List.filter_cons]
    rw [if_pos (by rw [hr]; norm_num)]
    rfl
  unfold spaceAmpPick
  rw [h1, if_neg (lt_irrefl 2), hfil, List.mergeSort_singleton]
  unfold pickLoop
  rw [if_pos (by norm_num [totalBytes, staleBytes])]
  rfl

/-- Stale bytes of a selection prefix. -/
def staleSum (l : List GSegment) : Nat :=
  (l.map (fun s => s.gc.stale_bytes)).sum

/-- The claim's projected space amplification after reclaiming `ps`
picked stale bytes: `(total − ps) / ((total − ps) − (stale − ps))`. -/
def projAmp (total stale ps : Nat) : ℚ :=
  ((total - ps : Nat) : ℚ) /
    (((total - ps : Nat) : ℚ) - ((stale - ps : Nat) : ℚ))

theorem pickLoop_char (target : ℚ) (cand : List GSegment) :
    ∀ (t s : Nat) (sel : List Nat),
    ∃ k, pickLoop target cand t s sel =
        sel ++ (cand.take k).map (fun x => x.id) ∧
      (cand = [] → k = 0) ∧ (cand ≠ [] → 1 ≤ k ∧ k ≤ cand.length) ∧
      (k = cand.length ∨ projAmp t s (staleSum (cand.take k)) ≤ target) ∧
      (∀ j, 1 ≤ j → j < k →
        ¬ projAmp t s (staleSum (cand.take j)) ≤ target) := by
  induction cand with
  | nil =>
    intro t s sel
    refine ⟨0, by simp [pickLoop], fun _ => rfl,
      fun h => absurd rfl h, Or.inl rfl, ?_⟩
    intro j h1 h2
    omega
  | cons seg rest ih =>
    intro t s sel
    have hcond : pickLoop target (seg :: rest) t s sel =
        if projAmp t s seg.gc.stale_bytes ≤ target then
          sel ++ [seg.id]
        else
          pickLoop target rest (t - seg.gc.stale_bytes)
            (s - seg.gc.stale_bytes) (sel ++ [seg.id]) := rfl
    have hsum1 : staleSum ((seg :: rest).take 1) = seg.gc.stale_bytes := by
      simp [staleSum]
    by_cases hc : projAmp t s seg.gc.stale_bytes ≤ target
    · refine ⟨1, ?_, by simp, fun _ => ⟨le_refl 1, by simp⟩,
        Or.inr (by rw [hsum1]; exact hc), ?_⟩
      · rw [hcond, if_pos hc]
        simp
      · intro j h1 h2
        omega
    · obtain ⟨k2, hh1, hh2, hh3, hh4, hh5⟩ :=
        ih (t - seg.gc.stale_bytes) (s - seg.gc.stale_bytes) (sel ++ [seg.id])
      have htrans : ∀ j : Nat,
          projAmp (t - seg.gc.stale_bytes) (s - seg.gc.stale_bytes)
            (staleSum (rest.take j)) =
          projAmp t s (staleSum ((seg :: rest).take (j + 1))) := by
        intro j
        unfold projAmp
        rw [show staleSum ((seg :: rest).take (j + 1)) =
            seg.gc.stale_bytes + staleSum (rest.take j) by simp [staleSum]]
        rw [Nat.sub_sub, Nat.sub_sub]
      refine ⟨k2 + 1, ?_, by simp, fun _ => ⟨by omega, ?_⟩, ?_, ?_⟩
      · rw [hcond, if_neg hc, hh1]
        simp
      · have : k2 ≤ rest.length := by
          by_cases hr : rest = []
          · subst hr
            rw [hh2 rfl]
            simp
          · exact (hh3 hr).2
        simp only [List.length_cons]
        omega
      · rcases hh4 with h | h
        · exact Or.inl (by simp [h])
        · exact Or.inr (by rw [← htrans k2]; exact h)
      · intro j h1 h2
        match j, h1 with
        | 1, _ =>
          rw [hsum1]
          exact hc
        | (j2 + 2), _ =>
          rw [show j2 + 2 = (j2 + 1) + 1 by rfl, ← htrans (j2 + 1)]
          exact hh5 (j2 + 1) (by omega) (by omega)

/-- C6 amended: the strategy picks nothing iff the current space
amplification is *strictly* below the target (at equality it still
selects); otherwise it considers exactly the positive-stale-ratio
segments, in descending stale-ratio order (stable sort), and greedily
selects the shortest non-empty prefix whose projected space
amplification `(total − Σ picked) / ((total − Σ picked) − (stale − Σ
picked))` reaches the target, or all candidates if none does. -/
theorem C6_spaceamp_selection (target : ℚ) (segs : List GSegment) :
    (spaceAmp segs < target → spaceAmpPick target segs = []) ∧
    (¬ spaceAmp segs < target →
      ((segs.filter (fun s => 0 < segStaleRatio s)).mergeSort
          ratioGe).Pairwise
        (fun a b => segStaleRatio b ≤ segStaleRatio a) ∧
      ((segs.filter (fun s => 0 < segStaleRatio s)).mergeSort
          ratioGe).Perm (segs.filter (fun s => 0 < segStaleRatio s)) ∧
      ∃ k, spaceAmpPick target segs =
          (((segs.filter (fun s => 0 < segStaleRatio s)).mergeSort
            ratioGe).take k).map (fun x => x.id) ∧
        ((segs.filter (fun s => 0 < segStaleRatio s)).mergeSort ratioGe
            ≠ [] → 1 ≤ k) ∧
        (k = ((segs.filter (fun s => 0 < segStaleRatio s)).mergeSort
            ratioGe).length ∨
          projAmp (totalBytes segs) (staleBytes segs)
            (staleSum ((((segs.filter (fun s => 0 < segStaleRatio s)
              ).mergeSort ratioGe)).take k)) ≤ target) ∧
        (∀ j, 1 ≤ j → j < k →
          ¬ projAmp (totalBytes segs) (staleBytes segs)
            (staleSum ((((segs.filter (fun s => 0 < segStaleRatio s)
              ).mergeSort ratioGe)).take j)) ≤ target)) := by
  constructor
  · intro hlt
    unfold spaceAmpPick
    rw [if_pos hlt]
  · intro hge
    refine ⟨?_, List.mergeSort_perm _ _, ?_⟩
    · have hp := @List.sorted_mergeSort GSegment ratioGe
        (fun a b c hab hbc => by
          simp only [ratioGe, decide_eq_true_eq] at *
          exact le_trans hbc hab)
        (fun a b => by
          simp only [ratioGe]
          rcases le_total (segStaleRatio b) (segStaleRatio a) with h | h
          · simp [h]
          · simp [h])
        (segs.filter (fun s => 0 < segStaleRatio s))
      exact hp.imp (fun h => by
        simpa [ratioGe, decide_eq_true_eq] using h)
    · obtain ⟨k, h1, h2, h3, h4, h5⟩ := pickLoop_char target
        ((segs.filter (fun s => 0 < segStaleRatio s)).mergeSort ratioGe)
        (totalBytes segs) (staleBytes segs) []
      refine ⟨k, ?_, fun hne => (h3 hne).1, h4, h5⟩
      unfold spaceAmpPick
      rw [if_neg hge, h1]
      simp

section MergeEmbed

variable {α β : Type} [LinearOrder α]

/-- Modelled from src/src/segment/merge.rs: a segment reader feeding the
merge, reduced to its segment id and its remaining `(key, value,
checksum)` records; the `crate::Result` error path of `SegmentReader`
is dropped, as the claim quantifies over well-formed sorted files. -/
structure MReader (α β : Type) where
  segment_id : Nat
  entries : List (α × β × Nat)
deriving DecidableEq

/-- merge.rs `IteratorValue`. -/
structure ItValue (α β : Type) where
  index : Nat
  key : α
  value : β
  segment_id : Nat
  checksum : Nat

/-- merge.rs `IteratorValue::cmp`: `(key, Reverse(segment_id))`
compared lexicographically; Bool form driving the heap model. -/
def itLEb (a b : ItValue α β) : Bool :=
  decide (a.key < b.key) ||
    (decide (a.key = b.key) && decide (b.segment_id ≤ a.segment_id))

/-- Propositional form of `itLEb`. -/
def itLEP (a b : ItValue α β) : Prop :=
  a.key < b.key ∨ (a.key = b.key ∧ b.segment_id ≤ a.segment_id)

/-- Insertion into the sorted-list model of the `IntervalHeap`
(`push`); `pop_min` is taking the head. -/
def heapInsert (a : ItValue α β) : List (ItValue α β) → List (ItValue α β)
  | [] => [a]
  | b :: l => if itLEb a b then a :: b :: l else b :: heapInsert a l

/-- merge.rs `MergeReader`: the readers plus the interval heap, the
heap kept as a list sorted by `itLEb`. -/
structure MergeState (α β : Type) where
  readers : List (MReader α β)
  heap : List (ItValue α β)

/-- merge.rs `MergeReader::advance_reader`: pull the next record of
reader `i`, if any, and push it on the heap tagged with the reader
index and segment id. -/
def advanceReader (st : MergeState α β) (i : Nat) : MergeState α β :=
  match st.readers[i]? with
  | none => st
  | some r =>
    match r.entries with
    | [] => st
    | e :: rest =>
      { readers := st.readers.set i ⟨r.segment_id, rest⟩,
        heap := heapInsert ⟨i, e.1, e.2.1, r.segment_id, e.2.2⟩ st.heap }

/-- merge.rs `MergeReader::push_next`: advance every reader once. -/
def pushNext (st : MergeState α β) : MergeState α β :=
  (List.range st.readers.length).foldl advanceReader st

/-- Heap size plus records still unread: strictly drops at every
pop, so it bounds the loops below. -/
def mgMeasure (st : MergeState α β) : Nat :=
  st.heap.length + (st.readers.map (fun r => r.entries.length)).sum

/-- Fuelled form of the duplicate-discarding loop of merge.rs
`Iterator::next`: pop heap minima while their key equals the emitted
key, advancing the corresponding reader each time; a non-matching
minimum is pushed back, which restores the heap unchanged. -/
def skipDupF : Nat → α → MergeState α β → MergeState α β
  | 0, _, st => st
  | n + 1, k, st =>
    match st.heap with
    | [] => st
    | nx :: rest =>
      if nx.key = k then
        skipDupF n k (advanceReader { st with heap := rest } nx.index)
      else st

/-- The loop with always-sufficient fuel (`mgMeasure` strictly drops
per iteration). -/
def skipDup (k : α) (st : MergeState α β) : MergeState α β :=
  skipDupF (mgMeasure st) k st

/-- The heap refill at the top of merge.rs `Iterator::next`: on an
empty heap, `push_next` is run first. -/
def mergeFill (st : MergeState α β) : MergeState α β :=
  if st.heap.isEmpty then pushNext st else st

/-- merge.rs `Iterator::next` for `MergeReader`: refill if empty, pop
the minimum, advance its reader, discard duplicates of its key, and
emit `(key, value, segment_id, checksum)`. -/
def mergeNext (st : MergeState α β) :
    Option ((α × β × Nat × Nat) × MergeState α β) :=
  match (mergeFill st).heap with
  | [] => none
  | head :: rest =>
    some ((head.key, head.value, head.segment_id, head.checksum),
      skipDup head.key (advanceReader { mergeFill st with heap := rest } head.index))

def mergeOutF : Nat → MergeState α β → List (α × β × Nat × Nat)
  | 0, _ => []
  | n + 1, st =>
    match mergeNext st with
    | none => []
    | some (o, st2) => o :: mergeOutF n st2

/-- Drain the merge reader to a list; each emission strictly drops
`mgMeasure`, so `mgMeasure + 1` fuel always reaches the clean end. -/
def mergeOut (st : MergeState α β) : List (α × β × Nat × Nat) :=
  mergeOutF (mgMeasure st + 1) st

/-- Records of one reader as emitted tuples. -/
def rItems (r : MReader α β) : List (α × β × Nat × Nat) :=
  r.entries.map (fun e => (e.1, e.2.1, r.segment_id, e.2.2))

/-- Heap entries as emitted tuples. -/
def heapItems (h : List (ItValue α β)) : List (α × β × Nat × Nat) :=
  h.map (fun it => (it.key, it.value, it.segment_id, it.checksum))

/-- Everything the merge can still emit from state `st`. -/
def mgPending (st : MergeState α β) : List (α × β × Nat × Nat) :=
  heapItems st.heap ++ (st.readers.map rItems).flatten

/-- Invariant maintained between `mergeNext` calls: sorted heap; every
heap entry indexes a live reader, carries its segment id and precedes
all its remaining keys; at most one heap entry per reader; once the
heap is non-empty every reader with records left has a heap entry;
remaining keys per reader strictly sorted; segment ids distinct. -/
structure MInv (st : MergeState α β) : Prop where
  hsort : st.heap.Pairwise itLEP
  hitem : ∀ it ∈ st.heap, ∃ r, st.readers[it.index]? = some r ∧
    it.segment_id = r.segment_id ∧ ∀ e ∈ r.entries, it.key < e.1
  hnodup : (st.heap.map (fun it => it.index)).Nodup
  hrep : ∀ (i : Nat) (r : MReader α β), st.readers[i]? = some r → r.entries ≠ [] →
    st.heap = [] ∨ ∃ it ∈ st.heap, it.index = i
  hrsort : ∀ (i : Nat) (r : MReader α β), st.readers[i]? = some r →
    (r.entries.map (fun e => e.1)).Pairwise (fun a b => a < b)
  hids : (st.readers.map (fun r => r.segment_id)).Nodup

end MergeEmbed

section MergeLemmas

variable {α β : Type} [LinearOrder α]

theorem itLEb_iff (a b : ItValue α β) : itLEb a b = true ↔ itLEP a b := by
  simp [itLEb, itLEP]

theorem itLEP_of_not {a b : ItValue α β} (h : ¬ itLEb a b = true) :
    itLEP b a := by
  simp only [itLEb, Bool.or_eq_true, Bool.and_eq_true, decide_eq_true_eq,
    not_or, not_and] at h
  obtain ⟨h1, h2⟩ := h
  rcases lt_trichotomy a.key b.key with h3 | h3 | h3
  · exact absurd h3 h1
  · exact Or.inr ⟨h3.symm, le_of_lt (lt_of_not_le (h2 h3))⟩
  · exact Or.inl h3

theorem itLEP_trans {a b c : ItValue α β} (h1 : itLEP a b)
    (h2 : itLEP b c) : itLEP a c := by
  rcases h1 with h1 | ⟨h1, h1s⟩ <;> rcases h2 with h2 | ⟨h2, h2s⟩
  · exact Or.inl (lt_trans h1 h2)
  · exact Or.inl (h2 ▸ h1)
  · exact Or.inl (h1 ▸ h2)
  · exact Or.inr ⟨h1.trans h2, le_trans h2s h1s⟩

theorem itLEP_key {a b : ItValue α β} (h : itLEP a b) : a.key ≤ b.key := by
  rcases h with h | ⟨h, _⟩
  · exact le_of_lt h
  · exact le_of_eq h

theorem heapInsert_perm (a : ItValue α β) (l : List (ItValue α β)) :
    (heapInsert a l).Perm (a :: l) := by
  induction l with
  | nil => exact List.Perm.refl _
  | cons b t ih =>
    by_cases h : itLEb a b
    · rw [heapInsert, if_pos h]
    · rw [heapInsert, if_neg h]
      exact (ih.cons b).trans (List.Perm.swap a b t)

theorem mem_heapInsert {x a : ItValue α β} {l : List (ItValue α β)} :
    x ∈ heapInsert a l ↔ x = a ∨ x ∈ l := by
  rw [(heapInsert_perm a l).mem_iff]
  simp

theorem length_heapInsert (a : ItValue α β) (l : List (ItValue α β)) :
    (heapInsert a l).length = l.length + 1 := by
  rw [(heapInsert_perm a l).length_eq]
  rfl

theorem pairwise_heapInsert {a : ItValue α β} {l : List (ItValue α β)}
    (h : l.Pairwise itLEP) : (heapInsert a l).Pairwise itLEP := by
  induction l with
  | nil => simp [heapInsert]
  | cons b t ih =>
    rw [List.pairwise_cons] at h
    by_cases hc : itLEb a b
    · rw [heapInsert, if_pos hc]
      refine List.Pairwise.cons ?_ (List.Pairwise.cons h.1 h.2)
      intro x hx
      rcases List.mem_cons.mp hx with hx | hx
      · exact hx ▸ (itLEb_iff a b).mp hc
      · exact itLEP_trans ((itLEb_iff a b).mp hc) (h.1 x hx)
    · rw [heapInsert, if_neg hc]
      refine List.Pairwise.cons ?_ (ih h.2)
      intro x hx
      rcases mem_heapInsert.mp hx with hx | hx
      · exact hx ▸ itLEP_of_not hc
      · exact h.1 x hx

theorem getq_set_self {γ : Type} :
    ∀ (l : List γ) (i : Nat) (a b : γ), l[i]? = some b →
      (l.set i a)[i]? = some a := by
  intro l
  induction l with
  | nil => intro i a b h; cases h
  | cons x t ih =>
    intro i a b h
    cases i with
    | zero => simp
    | succ j =>
      rw [List.getElem?_cons_succ] at h
      rw [List.set_cons_succ, List.getElem?_cons_succ]
      exact ih j a b h

theorem getq_set_other {γ : Type} :
    ∀ (l : List γ) (i j : Nat) (a : γ), i ≠ j →
      (l.set i a)[j]? = l[j]? := by
  intro l
  induction l with
  | nil => intro i j a _; rfl
  | cons x t ih =>
    intro i j a hne
    cases i with
    | zero =>
      cases j with
      | zero => exact absurd rfl hne
      | succ j2 => simp
    | succ i2 =>
      cases j with
      | zero => simp
      | succ j2 =>
        rw [List.set_cons_succ, List.getElem?_cons_succ,
          List.getElem?_cons_succ]
        exact ih i2 j2 a (fun h => hne (by rw [h]))

theorem mem_readerFlat (l : List (MReader α β)) (q : α × β × Nat × Nat) :
    q ∈ (l.map rItems).flatten ↔
      ∃ (j : Nat) (r : MReader α β), l[j]? = some r ∧ q ∈ rItems r := by
  induction l with
  | nil =>
    simp
  | cons r t ih =>
    simp only [List.map_cons, List.flatten_cons, List.mem_append, ih]
    constructor
    · rintro (hq | ⟨j, r', hj, hq⟩)
      · exact ⟨0, r, by simp, hq⟩
      · exact ⟨j + 1, r', by rw [List.getElem?_cons_succ]; exact hj, hq⟩
    · rintro ⟨j, r', hj, hq⟩
      cases j with
      | zero =>
        rw [List.getElem?_cons_zero] at hj
        cases hj
        exact Or.inl hq
      | succ j2 =>
        rw [List.getElem?_cons_succ] at hj
        exact Or.inr ⟨j2, r', hj, hq⟩

theorem mem_mgPending (st : MergeState α β) (q : α × β × Nat × Nat) :
    q ∈ mgPending st ↔ q ∈ heapItems st.heap ∨
      ∃ (j : Nat) (r : MReader α β), st.readers[j]? = some r ∧
        q ∈ rItems r := by
  rw [mgPending, List.mem_append, mem_readerFlat]

theorem mem_heapItems_insert {q : α × β × Nat × Nat} {it : ItValue α β}
    {h : List (ItValue α β)} :
    q ∈ heapItems (heapInsert it h) ↔
      q = (it.key, it.value, it.segment_id, it.checksum) ∨
        q ∈ heapItems h := by
  rw [heapItems, ((heapInsert_perm it h).map _).mem_iff]
  simp [heapItems, eq_comm]

theorem exists_getq_split {γ : Type} (l : List γ) (i : Nat) (b : γ)
    (hb : l[i]? = some b) (Q : γ → Prop) :
    (∃ (j : Nat) (r : γ), l[j]? = some r ∧ Q r) ↔
      Q b ∨ ∃ (j : Nat) (r : γ), j ≠ i ∧ l[j]? = some r ∧ Q r := by
  constructor
  · rintro ⟨j, r, hj, hq⟩
    by_cases hji : j = i
    · subst hji
      rw [hb] at hj
      cases hj
      exact Or.inl hq
    · exact Or.inr ⟨j, r, hji, hj, hq⟩
  · rintro (hq | ⟨j, r, _, hj, hq⟩)
    · exact ⟨i, b, hb, hq⟩
    · exact ⟨j, r, hj, hq⟩

theorem exists_ne_set {γ : Type} (l : List γ) (i : Nat) (a : γ)
    (Q : γ → Prop) :
    (∃ (j : Nat) (r : γ), j ≠ i ∧ (l.set i a)[j]? = some r ∧ Q r) ↔
      ∃ (j : Nat) (r : γ), j ≠ i ∧ l[j]? = some r ∧ Q r := by
  constructor
  · rintro ⟨j, r, hji, hj, hq⟩
    rw [getq_set_other l i j a (fun h => hji h.symm)] at hj
    exact ⟨j, r, hji, hj, hq⟩
  · rintro ⟨j, r, hji, hj, hq⟩
    rw [← getq_set_other l i j a (fun h => hji h.symm)] at hj
    exact ⟨j, r, hji, hj, hq⟩

end MergeLemmas

section AdvanceLemmas

variable {α β : Type} [LinearOrder α]

theorem advanceReader_cases (st : MergeState α β) (i : Nat) :
    (advanceReader st i = st ∧
      ∀ r : MReader α β, st.readers[i]? = some r → r.entries = []) ∨
    (∃ (r : MReader α β) (e : α × β × Nat) (rest : List (α × β × Nat)),
      st.readers[i]? = some r ∧ r.entries = e :: rest ∧
      advanceReader st i =
        { readers := st.readers.set i ⟨r.segment_id, rest⟩,
          heap := heapInsert ⟨i, e.1, e.2.1, r.segment_id, e.2.2⟩ st.heap }) := by
  rcases hr : st.readers[i]? with _ | r
  · refine Or.inl ⟨?_, ?_⟩
    · simp only [advanceReader, hr]
    · intro r h
      cases h
  · rcases he : r.entries with _ | ⟨e, rest⟩
    · refine Or.inl ⟨?_, ?_⟩
      · simp only [advanceReader, hr, he]
      · intro r2 h
        cases h
        exact he
    · exact Or.inr ⟨r, e, rest, rfl, he, by simp only [advanceReader, hr, he]⟩

theorem advanceReader_rlen (st : MergeState α β) (i : Nat) :
    (advanceReader st i).readers.length = st.readers.length := by
  rcases advanceReader_cases st i with ⟨h, _⟩ | ⟨r, e, rest, _, _, h⟩
  · rw [h]
  · rw [h]
    exact List.length_set ..

theorem advanceReader_get_other (st : MergeState α β) (i j : Nat)
    (hne : i ≠ j) :
    (advanceReader st i).readers[j]? = st.readers[j]? := by
  rcases advanceReader_cases st i with ⟨h, _⟩ | ⟨r, e, rest, _, _, h⟩
  · rw [h]
  · rw [h]
    exact getq_set_other st.readers i j _ hne

theorem segids_set (l : List (MReader α β)) :
    ∀ (i : Nat) (r : MReader α β) (rest : List (α × β × Nat)),
      l[i]? = some r →
      (l.set i ⟨r.segment_id, rest⟩).map (fun x => x.segment_id) =
        l.map (fun x => x.segment_id) := by
  induction l with
  | nil => intro i r rest h; cases h
  | cons x t ih =>
    intro i r rest h
    cases i with
    | zero =>
      rw [List.getElem?_cons_zero] at h
      cases h
      simp
    | succ j =>
      rw [List.getElem?_cons_succ] at h
      rw [List.set_cons_succ, List.map_cons, List.map_cons, ih j r rest h]

theorem advanceReader_segids (st : MergeState α β) (i : Nat) :
    (advanceReader st i).readers.map (fun r => r.segment_id) =
      st.readers.map (fun r => r.segment_id) := by
  rcases advanceReader_cases st i with ⟨h, _⟩ | ⟨r, e, rest, hr, _, h⟩
  · rw [h]
  · rw [h]
    exact segids_set st.readers i r rest hr

theorem sum_entlen_set (l : List (MReader α β)) :
    ∀ (i : Nat) (r a : MReader α β), l[i]? = some r →
      ((l.set i a).map (fun x => x.entries.length)).sum +
          r.entries.length =
        (l.map (fun x => x.entries.length)).sum + a.entries.length := by
  induction l with
  | nil => intro i r a h; cases h
  | cons x t ih =>
    intro i r a h
    cases i with
    | zero =>
      rw [List.getElem?_cons_zero] at h
      cases h
      simp
      omega
    | succ j =>
      rw [List.getElem?_cons_succ] at h
      rw [List.set_cons_succ, List.map_cons, List.map_cons, List.sum_cons,
        List.sum_cons]
      have := ih j r a h
      omega

theorem advanceReader_measure (st : MergeState α β) (i : Nat) :
    mgMeasure (advanceReader st i) ≤ mgMeasure st := by
  rcases advanceReader_cases st i with ⟨h, _⟩ | ⟨r, e, rest, hr, he, h⟩
  · rw [h]
  · rw [h]
    have hs := sum_entlen_set st.readers i r ⟨r.segment_id, rest⟩ hr
    rw [he] at hs
    have hl := length_heapInsert
      (⟨i, e.1, e.2.1, r.segment_id, e.2.2⟩ : ItValue α β) st.heap
    simp only [List.length_cons] at hs
    show (heapInsert ⟨i, e.1, e.2.1, r.segment_id, e.2.2⟩ st.heap).length +
        ((st.readers.set i ⟨r.segment_id, rest⟩).map
          (fun x => x.entries.length)).sum ≤
      st.heap.length + (st.readers.map (fun x => x.entries.length)).sum
    omega

theorem advanceReader_pending (st : MergeState α β) (i : Nat)
    (q : α × β × Nat × Nat) :
    q ∈ mgPending (advanceReader st i) ↔ q ∈ mgPending st := by
  rcases advanceReader_cases st i with ⟨h, _⟩ | ⟨r, e, rest, hr, he, h⟩
  · rw [h]
  · rw [h]
    rw [mem_mgPending, mem_mgPending]
    have hset : (st.readers.set i ⟨r.segment_id, rest⟩)[i]? =
        some ⟨r.segment_id, rest⟩ := getq_set_self st.readers i _ r hr
    rw [exists_getq_split (st.readers.set i ⟨r.segment_id, rest⟩) i _ hset
      (fun r2 => q ∈ rItems r2)]
    rw [exists_getq_split st.readers i r hr (fun r2 => q ∈ rItems r2)]
    rw [exists_ne_set st.readers i ⟨r.segment_id, rest⟩
      (fun r2 => q ∈ rItems r2)]
    rw [mem_heapItems_insert]
    have hri : q ∈ rItems r ↔
        q = (e.1, e.2.1, r.segment_id, e.2.2) ∨
          q ∈ rItems (⟨r.segment_id, rest⟩ : MReader α β) := by
      simp [rItems, he]
    rw [hri]
    tauto

end AdvanceLemmas

section SkipDupLemmas

variable {α β : Type} [LinearOrder α]

theorem mem_heapItems {q : α × β × Nat × Nat} {h : List (ItValue α β)} :
    q ∈ heapItems h ↔
      ∃ it ∈ h, (it.key, it.value, it.segment_id, it.checksum) = q := by
  simp [heapItems]

/-- Preconditions of the duplicate-discarding loop for emitted key
`k`: merge invariant pieces, every unread record key above `k`, every
heap key at least `k`. -/
structure SDIn (k : α) (s : MergeState α β) : Prop where
  isort : s.heap.Pairwise itLEP
  iitem : ∀ it ∈ s.heap, ∃ r, s.readers[it.index]? = some r ∧
    it.segment_id = r.segment_id ∧ ∀ e ∈ r.entries, it.key < e.1
  inodup : (s.heap.map (fun it => it.index)).Nodup
  irep : ∀ (i : Nat) (r : MReader α β), s.readers[i]? = some r →
    r.entries ≠ [] → ∃ it ∈ s.heap, it.index = i
  irsort : ∀ (i : Nat) (r : MReader α β), s.readers[i]? = some r →
    (r.entries.map (fun e => e.1)).Pairwise (fun a b => a < b)
  ient : ∀ q ∈ (s.readers.map rItems).flatten, k < q.1
  iheap : ∀ it ∈ s.heap, k ≤ it.key

/-- Postconditions of the duplicate-discarding loop from `s` to `s2`:
the invariant pieces again, unchanged reader count and segment ids,
pending entries only lost, entries with another key kept, and every
pending key now strictly above `k`. -/
structure SDOut (k : α) (s s2 : MergeState α β) : Prop where
  osort : s2.heap.Pairwise itLEP
  oitem : ∀ it ∈ s2.heap, ∃ r, s2.readers[it.index]? = some r ∧
    it.segment_id = r.segment_id ∧ ∀ e ∈ r.entries, it.key < e.1
  onodup : (s2.heap.map (fun it => it.index)).Nodup
  orep : ∀ (i : Nat) (r : MReader α β), s2.readers[i]? = some r →
    r.entries ≠ [] → ∃ it ∈ s2.heap, it.index = i
  orsort : ∀ (i : Nat) (r : MReader α β), s2.readers[i]? = some r →
    (r.entries.map (fun e => e.1)).Pairwise (fun a b => a < b)
  olen : s2.readers.length = s.readers.length
  oids : s2.readers.map (fun r => r.segment_id) =
    s.readers.map (fun r => r.segment_id)
  osub : ∀ q ∈ mgPending s2, q ∈ mgPending s
  okeep : ∀ q ∈ mgPending s, q.1 ≠ k → q ∈ mgPending s2
  ogt : ∀ q ∈ mgPending s2, k < q.1

theorem SDIn_pop (k : α) (s : MergeState α β) (nx : ItValue α β)
    (rest : List (ItValue α β)) (hh : s.heap = nx :: rest)
    (hin : SDIn k s) :
    SDIn k (advanceReader { s with heap := rest } nx.index) := by
  have hsort := hin.isort
  have hitem := hin.iitem
  have hnodup := hin.inodup
  have hrep := hin.irep
  have hiheap := hin.iheap
  rw [hh] at hsort hitem hnodup hiheap
  rw [List.pairwise_cons] at hsort
  rw [List.map_cons, List.nodup_cons] at hnodup
  rcases advanceReader_cases { s with heap := rest } nx.index with
    ⟨hA, hA2⟩ | ⟨r, e, tl, hr, he, hA⟩
  · rw [hA]
    refine ⟨hsort.2, ?_, hnodup.2, ?_, hin.irsort, hin.ient, ?_⟩
    · intro it hit
      exact hitem it (List.mem_cons_of_mem nx hit)
    · intro i r hri hne
      rcases hrep i r hri hne with ⟨it, hit, hidx⟩
      rw [hh] at hit
      rcases List.mem_cons.mp hit with hit2 | hit2
      · exfalso
        apply hne
        apply hA2 r
        rw [hit2] at hidx
        rw [hidx]
        exact hri
      · exact ⟨it, hit2, hidx⟩
    · intro it hit
      exact hiheap it (List.mem_cons_of_mem nx hit)
  · rw [hA]
    have hentkeys := hin.irsort nx.index r hr
    rw [he, List.map_cons, List.pairwise_cons] at hentkeys
    refine ⟨pairwise_heapInsert hsort.2, ?_, ?_, ?_, ?_, ?_, ?_⟩
    · intro it hit
      rcases mem_heapInsert.mp hit with hit2 | hit2
      · subst hit2
        refine ⟨⟨r.segment_id, tl⟩,
          getq_set_self s.readers nx.index _ r hr, rfl, ?_⟩
        intro e2 he2
        exact hentkeys.1 e2.1 (List.mem_map_of_mem (fun x => x.1) he2)
      · have hne : it.index ≠ nx.index := by
          intro hcontra
          exact hnodup.1 (hcontra ▸ List.mem_map_of_mem _ hit2)
        obtain ⟨r2, hr2, hseg2, hkey2⟩ :=
          hitem it (List.mem_cons_of_mem nx hit2)
        refine ⟨r2, ?_, hseg2, hkey2⟩
        rw [getq_set_other s.readers nx.index it.index _
          (fun hxx => hne hxx.symm)]
        exact hr2
    · rw [List.Perm.nodup_iff
        ((heapInsert_perm _ rest).map (fun it => it.index))]
      rw [List.map_cons, List.nodup_cons]
      exact ⟨hnodup.1, hnodup.2⟩
    · intro i r2 hri hne2
      by_cases hii : i = nx.index
      · subst hii
        exact ⟨_, mem_heapInsert.mpr (Or.inl rfl), rfl⟩
      · rw [getq_set_other s.readers nx.index i _
          (fun hxx => hii hxx.symm)] at hri
        rcases hrep i r2 hri hne2 with ⟨it, hit, hidx⟩
        rw [hh] at hit
        rcases List.mem_cons.mp hit with hit2 | hit2
        · exfalso
          apply hii
          rw [← hidx, hit2]
        · exact ⟨it, mem_heapInsert.mpr (Or.inr hit2), hidx⟩
    · intro i r2 hri
      by_cases hii : i = nx.index
      · subst hii
        rw [getq_set_self s.readers nx.index _ r hr] at hri
        cases hri
        have := hin.irsort nx.index r hr
        rw [he, List.map_cons, List.pairwise_cons] at this
        exact this.2
      · rw [getq_set_other s.readers nx.index i _
          (fun hxx => hii hxx.symm)] at hri
        exact hin.irsort i r2 hri
    · intro q hq
      rw [mem_readerFlat] at hq
      obtain ⟨j, r2, hj, hq2⟩ := hq
      by_cases hji : j = nx.index
      · subst hji
        rw [getq_set_self s.readers nx.index _ r hr] at hj
        cases hj
        apply hin.ient q
        rw [mem_readerFlat]
        refine ⟨nx.index, r, hr, ?_⟩
        rw [rItems, he, List.map_cons]
        exact List.mem_cons_of_mem _ hq2
      · rw [getq_set_other s.readers nx.index j _
          (fun hxx => hji hxx.symm)] at hj
        apply hin.ient q
        rw [mem_readerFlat]
        exact ⟨j, r2, hj, hq2⟩
    · intro it hit
      rcases mem_heapInsert.mp hit with hit2 | hit2
      · subst hit2
        apply le_of_lt
        have : k < (e.1, e.2.1, r.segment_id, e.2.2).1 := by
          apply hin.ient
          rw [mem_readerFlat]
          refine ⟨nx.index, r, hr, ?_⟩
          rw [rItems, he, List.map_cons]
          exact List.mem_cons_self _ _
        exact this
      · exact hiheap it (List.mem_cons_of_mem nx hit2)

theorem skipDupF_spec (k : α) :
    ∀ (n : Nat) (s : MergeState α β), mgMeasure s ≤ n → SDIn k s →
      SDOut k s (skipDupF n k s) := by
  intro n
  induction n with
  | zero =>
    intro s hm hin
    have hh : s.heap = [] := by
      have h1 : s.heap.length = 0 := by
        unfold mgMeasure at hm
        omega
      exact List.length_eq_zero.mp h1
    refine ⟨hin.isort, hin.iitem, hin.inodup, hin.irep, hin.irsort, rfl,
      rfl, fun q hq => hq, fun q hq _ => hq, ?_⟩
    show ∀ q ∈ mgPending s, k < q.1
    intro q hq
    rw [mgPending, hh] at hq
    simp only [heapItems, List.map_nil, List.nil_append] at hq
    exact hin.ient q hq
  | succ n ih =>
    intro s hm hin
    rcases hh : s.heap with _ | ⟨nx, rest⟩
    · have heq : skipDupF (n + 1) k s = s := by
        simp only [skipDupF, hh]
      rw [heq]
      refine ⟨hin.isort, hin.iitem, hin.inodup, hin.irep, hin.irsort, rfl,
        rfl, fun q hq => hq, fun q hq _ => hq, ?_⟩
      intro q hq
      rw [mgPending, hh] at hq
      simp only [heapItems, List.map_nil, List.nil_append] at hq
      exact hin.ient q hq
    · have hsort := hin.isort
      have hitem := hin.iitem
      have hnodup := hin.inodup
      have hrep := hin.irep
      have hiheap := hin.iheap
      rw [hh] at hsort hitem hnodup hiheap
      rw [List.pairwise_cons] at hsort
      rw [List.map_cons, List.nodup_cons] at hnodup
      by_cases hk : nx.key = k
      · have heq : skipDupF (n + 1) k s =
            skipDupF n k (advanceReader { s with heap := rest } nx.index) := by
          simp only [skipDupF, hh]
          rw [if_pos hk]
        have hm2 : mgMeasure (advanceReader { s with heap := rest } nx.index) ≤ n := by
          have h1 := advanceReader_measure { s with heap := rest } nx.index
          have h2 : mgMeasure { s with heap := rest } + 1 = mgMeasure s := by
            show rest.length +
                (s.readers.map (fun r => r.entries.length)).sum + 1 =
              s.heap.length + (s.readers.map (fun r => r.entries.length)).sum
            rw [hh, List.length_cons]
            omega
          omega
        have hin2 := SDIn_pop k s nx rest hh hin
        obtain ⟨osort, oitem, onodup, orep, orsort, olen, oids, osub,
          okeep, ogt⟩ := ih (advanceReader { s with heap := rest } nx.index)
            hm2 hin2
        rw [heq]
        refine ⟨osort, oitem, onodup, orep, orsort, ?_, ?_, ?_, ?_, ogt⟩
        · rw [olen, advanceReader_rlen]
        · rw [oids, advanceReader_segids]
        · intro q hq
          have hq2 := osub q hq
          rw [advanceReader_pending] at hq2
          rw [mgPending] at hq2
          rcases List.mem_append.mp hq2 with h1 | h1
          · rw [mgPending, hh]
            refine List.mem_append_left _ ?_
            exact List.mem_cons_of_mem _ h1
          · rw [mgPending]
            exact List.mem_append_right _ h1
        · intro q hq hqk
          have hq2 : q ∈ mgPending { s with heap := rest } := by
            rw [mgPending, hh] at hq
            rcases List.mem_append.mp hq with h1 | h1
            · rcases List.mem_cons.mp
                (show q ∈ (nx.key, nx.value, nx.segment_id, nx.checksum) ::
                  heapItems rest from h1) with h2 | h2
              · exfalso
                apply hqk
                rw [h2]
                exact hk
              · rw [mgPending]
                exact List.mem_append_left _ h2
            · rw [mgPending]
              exact List.mem_append_right _ h1
          apply okeep q _ hqk
          rw [advanceReader_pending]
          exact hq2
      · have heq : skipDupF (n + 1) k s = s := by
          simp only [skipDupF, hh]
          rw [if_neg hk]
        rw [heq]
        refine ⟨hin.isort, hin.iitem, hin.inodup, hin.irep, hin.irsort,
          rfl, rfl, fun q hq => hq, fun q hq _ => hq, ?_⟩
        intro q hq
        rw [mgPending, hh] at hq
        rcases List.mem_append.mp hq with h1 | h1
        · rcases List.mem_cons.mp
            (show q ∈ (nx.key, nx.value, nx.segment_id, nx.checksum) ::
              heapItems rest from h1) with h2 | h2
          · rw [h2]
            exact lt_of_le_of_ne (hiheap nx (List.mem_cons_self nx rest))
              (fun hkk => hk hkk.symm)
          · obtain ⟨it, hit, hq3⟩ := mem_heapItems.mp h2
            rw [← hq3]
            have h4 : k < nx.key :=
              lt_of_le_of_ne (hiheap nx (List.mem_cons_self nx rest))
                (fun hkk => hk hkk.symm)
            exact lt_of_lt_of_le h4 (itLEP_key (hsort.1 it hit))
        · exact hin.ient q h1

end SkipDupLemmas

section PushNextLemmas

variable {α β : Type} [LinearOrder α]

theorem getq_none_of_le {γ : Type} :
    ∀ (l : List γ) (i : Nat), l.length ≤ i → l[i]? = none := by
  intro l
  induction l with
  | nil => intro i _; rfl
  | cons x t ih =>
    intro i h
    cases i with
    | zero => simp at h
    | succ j =>
      rw [List.getElem?_cons_succ]
      exact ih j (by simpa using h)

/-- State of the `push_next` fold after the first `n` reader indices:
indices at least `n` untouched, heap entries only for indices below
`n`, each non-exhausted processed reader represented. -/
structure PNOut (n : Nat) (st s1 : MergeState α β) : Prop where
  olen : s1.readers.length = st.readers.length
  oids : s1.readers.map (fun r => r.segment_id) =
    st.readers.map (fun r => r.segment_id)
  ountouched : ∀ j : Nat, n ≤ j → s1.readers[j]? = st.readers[j]?
  osort : s1.heap.Pairwise itLEP
  oitem : ∀ it ∈ s1.heap, ∃ r, s1.readers[it.index]? = some r ∧
    it.segment_id = r.segment_id ∧ ∀ e ∈ r.entries, it.key < e.1
  obnd : ∀ it ∈ s1.heap, it.index < n
  onodup : (s1.heap.map (fun it => it.index)).Nodup
  orep : ∀ (i : Nat) (r : MReader α β), s1.readers[i]? = some r → i < n →
    r.entries ≠ [] → ∃ it ∈ s1.heap, it.index = i
  orsort : ∀ (i : Nat) (r : MReader α β), s1.readers[i]? = some r →
    (r.entries.map (fun e => e.1)).Pairwise (fun a b => a < b)
  opending : ∀ q : α × β × Nat × Nat, q ∈ mgPending s1 ↔ q ∈ mgPending st

theorem pushNextAux_spec (st : MergeState α β) (hheap : st.heap = [])
    (hrsort : ∀ (i : Nat) (r : MReader α β), st.readers[i]? = some r →
      (r.entries.map (fun e => e.1)).Pairwise (fun a b => a < b)) :
    ∀ n : Nat, PNOut n st ((List.range n).foldl advanceReader st) := by
  intro n
  induction n with
  | zero =>
    refine ⟨rfl, rfl, fun j _ => rfl, ?_, ?_, ?_, ?_, ?_, hrsort,
      fun q => Iff.rfl⟩
    · rw [List.range_zero, List.foldl_nil, hheap]
      exact List.Pairwise.nil
    · intro it hit
      rw [List.range_zero, List.foldl_nil, hheap] at hit
      cases hit
    · intro it hit
      rw [List.range_zero, List.foldl_nil, hheap] at hit
      cases hit
    · rw [List.range_zero, List.foldl_nil, hheap]
      exact List.nodup_nil
    · intro i r _ hi _
      omega
  | succ n ih =>
    have hfold : (List.range (n + 1)).foldl advanceReader st =
        advanceReader ((List.range n).foldl advanceReader st) n := by
      rw [List.range_succ, List.foldl_append, List.foldl_cons, List.foldl_nil]
    obtain ⟨olen, oids, ountouched, osort, oitem, obnd, onodup, orep,
      orsort, opending⟩ := ih
    rw [hfold]
    have hadv_len := advanceReader_rlen ((List.range n).foldl advanceReader st) n
    have hadv_ids := advanceReader_segids ((List.range n).foldl advanceReader st) n
    have hadv_pend := advanceReader_pending ((List.range n).foldl advanceReader st) n
    refine ⟨by rw [hadv_len, olen], by rw [hadv_ids, oids], ?_, ?_, ?_, ?_,
      ?_, ?_, ?_, fun q => (hadv_pend q).trans (opending q)⟩
    · intro j hj
      rw [advanceReader_get_other _ n j (by omega)]
      exact ountouched j (by omega)
    all_goals
      rcases advanceReader_cases ((List.range n).foldl advanceReader st) n with
        ⟨hA, hA2⟩ | ⟨r, e, tl, hr, he, hA⟩
    · rw [hA]
      exact osort
    · rw [hA]
      exact pairwise_heapInsert osort
    · rw [hA]
      intro it hit
      exact oitem it hit
    · rw [hA]
      intro it hit
      rcases mem_heapInsert.mp hit with hit2 | hit2
      · subst hit2
        refine ⟨⟨r.segment_id, tl⟩, getq_set_self _ n _ r hr, rfl, ?_⟩
        have hs := orsort n r hr
        rw [he, List.map_cons, List.pairwise_cons] at hs
        intro e2 he2
        exact hs.1 e2.1 (List.mem_map_of_mem (fun x => x.1) he2)
      · have hne : it.index ≠ n := by
          have := obnd it hit2
          omega
        obtain ⟨r2, hr2, hseg2, hkey2⟩ := oitem it hit2
        refine ⟨r2, ?_, hseg2, hkey2⟩
        rw [getq_set_other _ n it.index _ (fun hxx => hne hxx.symm)]
        exact hr2
    · rw [hA]
      intro it hit
      have := obnd it hit
      omega
    · rw [hA]
      intro it hit
      rcases mem_heapInsert.mp hit with hit2 | hit2
      · rw [hit2]
        show n < n + 1
        omega
      · have := obnd it hit2
        omega
    · rw [hA]
      exact onodup
    · rw [hA]
      rw [List.Perm.nodup_iff
        ((heapInsert_perm _ _).map (fun it => it.index))]
      rw [List.map_cons, List.nodup_cons]
      constructor
      · intro hmem
        rw [List.mem_map] at hmem
        obtain ⟨it, hit, hidx⟩ := hmem
        have h5 := obnd it hit
        have h6 : it.index = n := hidx
        omega
      · exact onodup
    · rw [hA]
      intro i r2 hri hi hne2
      by_cases hii : i = n
      · subst hii
        exact absurd (hA2 r2 hri) hne2
      · exact orep i r2 hri (by omega) hne2
    · rw [hA]
      intro i r2 hri hi hne2
      by_cases hii : i = n
      · subst hii
        exact ⟨_, mem_heapInsert.mpr (Or.inl rfl), rfl⟩
      · rw [getq_set_other _ n i _ (fun hxx => hii hxx.symm)] at hri
        obtain ⟨it, hit, hidx⟩ := orep i r2 hri (by omega) hne2
        exact ⟨it, mem_heapInsert.mpr (Or.inr hit), hidx⟩
    · rw [hA]
      exact orsort
    · rw [hA]
      intro i r2 hri
      by_cases hii : i = n
      · rw [hii] at hri
        rw [getq_set_self _ n _ r hr] at hri
        cases hri
        have hs := orsort n r hr
        rw [he, List.map_cons, List.pairwise_cons] at hs
        exact hs.2
      · rw [getq_set_other _ n i _ (fun hxx => hii hxx.symm)] at hri
        exact orsort i r2 hri

/-- merge.rs `push_next` from an empty heap: every reader with records
left ends up represented on the heap, the invariant pieces hold and
the pending records are unchanged. -/
theorem pushNext_spec (st : MergeState α β) (hheap : st.heap = [])
    (hrsort : ∀ (i : Nat) (r : MReader α β), st.readers[i]? = some r →
      (r.entries.map (fun e => e.1)).Pairwise (fun a b => a < b)) :
    PNOut st.readers.length st (pushNext st) :=
  pushNextAux_spec st hheap hrsort st.readers.length

end PushNextLemmas

section MergeStepLemmas

variable {α β : Type} [LinearOrder α]

theorem mergeNext_step (st : MergeState α β) (hinv : MInv st) :
    (mergeNext st = none ∧ mgPending st = []) ∨
    (∃ (k : α) (v : β) (sid ck : Nat) (st3 : MergeState α β),
      mergeNext st = some ((k, v, sid, ck), st3) ∧ MInv st3 ∧
      (k, v, sid, ck) ∈ mgPending st ∧
      (∀ q ∈ mgPending st, k ≤ q.1) ∧
      (∀ q ∈ mgPending st, q.1 = k → q.2.2.1 ≤ sid) ∧
      (∀ q ∈ mgPending st3, q ∈ mgPending st) ∧
      (∀ q ∈ mgPending st, q.1 ≠ k → q ∈ mgPending st3) ∧
      (∀ q ∈ mgPending st3, k < q.1)) := by
  have hcore : (mergeFill st).heap.Pairwise itLEP ∧
      (∀ it ∈ (mergeFill st).heap, ∃ r,
        (mergeFill st).readers[it.index]? = some r ∧
        it.segment_id = r.segment_id ∧ ∀ e ∈ r.entries, it.key < e.1) ∧
      ((mergeFill st).heap.map (fun it => it.index)).Nodup ∧
      (∀ (i : Nat) (r : MReader α β), (mergeFill st).readers[i]? = some r →
        r.entries ≠ [] → ∃ it ∈ (mergeFill st).heap, it.index = i) ∧
      (∀ (i : Nat) (r : MReader α β), (mergeFill st).readers[i]? = some r →
        (r.entries.map (fun e => e.1)).Pairwise (fun a b => a < b)) ∧
      ((mergeFill st).readers.map (fun r => r.segment_id)).Nodup ∧
      (∀ q : α × β × Nat × Nat,
        q ∈ mgPending (mergeFill st) ↔ q ∈ mgPending st) := by
    by_cases hE : st.heap.isEmpty
    · have hmf : mergeFill st = pushNext st := by rw [mergeFill, if_pos hE]
      have hheap : st.heap = [] := List.isEmpty_iff.mp hE
      obtain ⟨olen, oids, _, osort, oitem, _, onodup, orep, orsort,
        opending⟩ := pushNext_spec st hheap hinv.hrsort
      rw [hmf]
      refine ⟨osort, oitem, onodup, ?_, orsort, ?_, opending⟩
      · intro i r hri hne
        have hlt : i < (pushNext st).readers.length := by
          by_contra hcon
          rw [getq_none_of_le _ i (by omega)] at hri
          cases hri
        rw [olen] at hlt
        exact orep i r hri hlt hne
      · rw [oids]
        exact hinv.hids
    · have hmf : mergeFill st = st := by rw [mergeFill, if_neg hE]
      rw [hmf]
      refine ⟨hinv.hsort, hinv.hitem, hinv.hnodup, ?_, hinv.hrsort,
        hinv.hids, fun q => Iff.rfl⟩
      intro i r hri hne
      rcases hinv.hrep i r hri hne with hcon | h
      · exfalso
        apply hE
        rw [List.isEmpty_iff]
        exact hcon
      · exact h
  obtain ⟨hsort1, hitem1, hnodup1, hrep1, hrsort1, hids1, hpend1⟩ := hcore
  rcases hh : (mergeFill st).heap with _ | ⟨head, rest⟩
  · left
    constructor
    · simp only [mergeNext, hh]
    · rw [List.eq_nil_iff_forall_not_mem]
      intro q hq
      rw [← hpend1 q] at hq
      rw [mgPending, hh] at hq
      simp only [heapItems, List.map_nil, List.nil_append] at hq
      rw [mem_readerFlat] at hq
      obtain ⟨j, r, hj, hqr⟩ := hq
      have hne : r.entries ≠ [] := by
        intro hcon
        rw [rItems, hcon] at hqr
        cases hqr
      obtain ⟨it, hit, _⟩ := hrep1 j r hj hne
      rw [hh] at hit
      cases hit
  · have hsortc := hsort1
    rw [hh, List.pairwise_cons] at hsortc
    have hiheap1 : ∀ it ∈ (mergeFill st).heap, head.key ≤ it.key := by
      intro it hit
      rw [hh] at hit
      rcases List.mem_cons.mp hit with h3 | h3
      · rw [h3]
      · exact itLEP_key (hsortc.1 it h3)
    have hientS : ∀ q ∈ ((mergeFill st).readers.map rItems).flatten,
        head.key < q.1 := by
      intro q hq
      rw [mem_readerFlat] at hq
      obtain ⟨j, r, hj, hqr⟩ := hq
      have hne : r.entries ≠ [] := by
        intro hcon
        rw [rItems, hcon] at hqr
        cases hqr
      obtain ⟨it, hit, hidx⟩ := hrep1 j r hj hne
      obtain ⟨r2, hr2, _, hkey⟩ := hitem1 it hit
      rw [hidx, hj] at hr2
      cases hr2
      rw [rItems, List.mem_map] at hqr
      obtain ⟨e, he, heq⟩ := hqr
      have h1 : it.key < e.1 := hkey e he
      have h2 : head.key ≤ it.key := hiheap1 it hit
      rw [← heq]
      exact lt_of_le_of_lt h2 h1
    have hA : ∀ q ∈ mgPending (mergeFill st), head.key ≤ q.1 := by
      intro q hq
      rw [mgPending] at hq
      rcases List.mem_append.mp hq with h1 | h1
      · obtain ⟨it, hit, heq⟩ := mem_heapItems.mp h1
        rw [← heq]
        exact hiheap1 it hit
      · exact le_of_lt (hientS q h1)
    have hB : ∀ q ∈ mgPending (mergeFill st), q.1 = head.key →
        q.2.2.1 ≤ head.segment_id := by
      intro q hq hqk
      rw [mgPending] at hq
      rcases List.mem_append.mp hq with h1 | h1
      · obtain ⟨it, hit, heq⟩ := mem_heapItems.mp h1
        rw [hh] at hit
        rcases List.mem_cons.mp hit with h3 | h3
        · rw [← heq, h3]
        · have h4 := hsortc.1 it h3
          rcases h4 with h4 | ⟨h4, h4s⟩
          · exfalso
            have h5 : q.1 = it.key := by rw [← heq]
            rw [hqk] at h5
            rw [← h5] at h4
            exact lt_irrefl _ h4
          · rw [← heq]
            exact h4s
      · exfalso
        have h5 := hientS q h1
        rw [hqk] at h5
        exact lt_irrefl _ h5
    have hC : (head.key, head.value, head.segment_id, head.checksum) ∈
        mgPending (mergeFill st) := by
      rw [mgPending, hh]
      exact List.mem_append_left _ (List.mem_cons_self _ _)
    have hin1 : SDIn head.key (mergeFill st) :=
      ⟨hsort1, hitem1, hnodup1, hrep1, hrsort1, hientS, hiheap1⟩
    have hin2 := SDIn_pop head.key (mergeFill st) head rest hh hin1
    obtain ⟨osort, oitem, onodup, orep, orsort, olen, oids, osub, okeep,
      ogt⟩ := skipDupF_spec head.key
        (mgMeasure (advanceReader { mergeFill st with heap := rest } head.index))
        (advanceReader { mergeFill st with heap := rest } head.index)
        (le_refl _) hin2
    right
    refine ⟨head.key, head.value, head.segment_id, head.checksum,
      skipDupF
        (mgMeasure
          (advanceReader { mergeFill st with heap := rest } head.index))
        head.key
        (advanceReader { mergeFill st with heap := rest } head.index),
      by simp only [mergeNext, hh]; rfl, ?_, (hpend1 _).mp hC, ?_, ?_, ?_, ?_,
      ogt⟩
    · refine ⟨osort, oitem, onodup, ?_, orsort, ?_⟩
      · intro i r hri hne
        exact Or.inr (orep i r hri hne)
      · rw [oids, advanceReader_segids]
        exact hids1
    · intro q hq
      exact hA q ((hpend1 q).mpr hq)
    · intro q hq hqk
      exact hB q ((hpend1 q).mpr hq) hqk
    · intro q hq
      have hq2 := osub q hq
      rw [advanceReader_pending] at hq2
      rw [mgPending] at hq2
      rcases List.mem_append.mp hq2 with h1 | h1
      · refine (hpend1 q).mp ?_
        rw [mgPending, hh]
        exact List.mem_append_left _ (List.mem_cons_of_mem _ h1)
      · refine (hpend1 q).mp ?_
        rw [mgPending]
        exact List.mem_append_right _ h1
    · intro q hq hqk
      have hq1 := (hpend1 q).mpr hq
      have hq2 : q ∈ mgPending { mergeFill st with heap := rest } := by
        rw [mgPending, hh] at hq1
        rcases List.mem_append.mp hq1 with h1 | h1
        · rcases List.mem_cons.mp
            (show q ∈ (head.key, head.value, head.segment_id, head.checksum) ::
              heapItems rest from h1) with h2 | h2
          · exfalso
            apply hqk
            rw [h2]
          · rw [mgPending]
            exact List.mem_append_left _ h2
        · rw [mgPending]
          exact List.mem_append_right _ h1
      apply okeep q _ hqk
      rw [advanceReader_pending]
      exact hq2

end MergeStepLemmas

section MergeOutLemmas

variable {α β : Type} [LinearOrder α]

theorem foldl_advance_measure :
    ∀ (l : List Nat) (st : MergeState α β),
      mgMeasure (l.foldl advanceReader st) ≤ mgMeasure st := by
  intro l
  induction l with
  | nil => intro st; exact le_refl _
  | cons a t ih =>
    intro st
    rw [List.foldl_cons]
    exact le_trans (ih _) (advanceReader_measure st a)

theorem mergeFill_measure (st : MergeState α β) :
    mgMeasure (mergeFill st) ≤ mgMeasure st := by
  rw [mergeFill]
  split
  · exact foldl_advance_measure _ st
  · exact le_refl _

theorem skipDupF_measure (k : α) :
    ∀ (n : Nat) (s : MergeState α β),
      mgMeasure (skipDupF n k s) ≤ mgMeasure s := by
  intro n
  induction n with
  | zero => intro s; exact le_refl _
  | succ n ih =>
    intro s
    rcases hh : s.heap with _ | ⟨nx, rest⟩
    · simp only [skipDupF, hh]
      exact le_refl _
    · simp only [skipDupF, hh]
      by_cases hk : nx.key = k
      · rw [if_pos hk]
        refine le_trans (ih _) ?_
        refine le_trans (advanceReader_measure _ _) ?_
        show rest.length +
            (s.readers.map (fun r => r.entries.length)).sum ≤
          s.heap.length + (s.readers.map (fun r => r.entries.length)).sum
        rw [hh, List.length_cons]
        omega
      · rw [if_neg hk]

theorem mergeNext_measure {st st' : MergeState α β}
    {o : α × β × Nat × Nat} (h : mergeNext st = some (o, st')) :
    mgMeasure st' < mgMeasure st := by
  rcases hh : (mergeFill st).heap with _ | ⟨head, rest⟩
  · simp only [mergeNext, hh] at h
    cases h
  · simp only [mergeNext, hh] at h
    cases h
    refine lt_of_le_of_lt (le_trans (skipDupF_measure head.key _ _)
      (advanceReader_measure _ _)) ?_
    show mgMeasure { mergeFill st with heap := rest } < mgMeasure st
    have h3 : mgMeasure { mergeFill st with heap := rest } + 1 =
        mgMeasure (mergeFill st) := by
      show rest.length +
          ((mergeFill st).readers.map (fun r => r.entries.length)).sum + 1 =
        (mergeFill st).heap.length +
          ((mergeFill st).readers.map (fun r => r.entries.length)).sum
      rw [hh, List.length_cons]
      omega
    have h4 := mergeFill_measure st
    omega

theorem mergeOutF_spec :
    ∀ (n : Nat) (st : MergeState α β), mgMeasure st ≤ n → MInv st →
      ((mergeOutF (n + 1) st).map (fun o => o.1)).Pairwise
        (fun a b => a < b) ∧
      (∀ k : α, (∃ o ∈ mergeOutF (n + 1) st, o.1 = k) ↔
        ∃ q ∈ mgPending st, q.1 = k) ∧
      (∀ o ∈ mergeOutF (n + 1) st, o ∈ mgPending st ∧
        ∀ q ∈ mgPending st, q.1 = o.1 → q.2.2.1 ≤ o.2.2.1) := by
  intro n
  induction n with
  | zero =>
    intro st hm hinv
    rcases mergeNext_step st hinv with ⟨hnone, hpend⟩ |
      ⟨k, v, sid, ck, st3, hsome, _⟩
    · simp only [mergeOutF, hnone]
      refine ⟨List.Pairwise.nil, ?_, ?_⟩
      · intro k
        rw [hpend]
      · intro o ho
        cases ho
    · exfalso
      have := mergeNext_measure hsome
      omega
  | succ n ih =>
    intro st hm hinv
    rcases mergeNext_step st hinv with ⟨hnone, hpend⟩ |
      ⟨k, v, sid, ck, st3, hsome, hinv3, hmem, hle, hmax, hsub, hkeep, hgt⟩
    · simp only [mergeOutF, hnone]
      refine ⟨List.Pairwise.nil, ?_, ?_⟩
      · intro k
        rw [hpend]
      · intro o ho
        cases ho
    · have hm3 : mgMeasure st3 ≤ n := by
        have := mergeNext_measure hsome
        omega
      obtain ⟨P1, P2, P3⟩ := ih st3 hm3 hinv3
      have hout : mergeOutF (n + 1 + 1) st =
          (k, v, sid, ck) :: mergeOutF (n + 1) st3 := by
        simp only [mergeOutF, hsome]
      rw [hout]
      refine ⟨?_, ?_, ?_⟩
      · rw [List.map_cons, List.pairwise_cons]
        refine ⟨?_, P1⟩
        intro k2 hk2
        rw [List.mem_map] at hk2
        obtain ⟨o2, ho2, heq⟩ := hk2
        have h5 := (P3 o2 ho2).1
        rw [← heq]
        exact hgt o2 h5
      · intro k2
        constructor
        · rintro ⟨o2, ho2, heq⟩
          rcases List.mem_cons.mp ho2 with h5 | h5
          · refine ⟨(k, v, sid, ck), hmem, ?_⟩
            rw [← heq, h5]
          · obtain ⟨q, hq, hq2⟩ := (P2 k2).mp ⟨o2, h5, heq⟩
            exact ⟨q, hsub q hq, hq2⟩
        · rintro ⟨q, hq, heq⟩
          by_cases hkk : k2 = k
          · exact ⟨(k, v, sid, ck), List.mem_cons_self _ _, hkk.symm⟩
          · have hq3 : q ∈ mgPending st3 := by
              apply hkeep q hq
              rw [heq]
              exact hkk
            obtain ⟨o2, ho2, heq2⟩ := (P2 k2).mpr ⟨q, hq3, heq⟩
            exact ⟨o2, List.mem_cons_of_mem _ ho2, heq2⟩
      · intro o ho
        rcases List.mem_cons.mp ho with h5 | h5
        · subst h5
          exact ⟨hmem, hmax⟩
        · obtain ⟨hP, hM⟩ := P3 o h5
          refine ⟨hsub o hP, ?_⟩
          intro q hq hqk
          have hne : o.1 ≠ k := by
            have := hgt o hP
            intro hcon
            rw [hcon] at this
            exact lt_irrefl _ this
          have hq3 : q ∈ mgPending st3 := by
            apply hkeep q hq
            rw [hqk]
            exact hne
          exact hM q hq3 hqk

end MergeOutLemmas

theorem getq_mem {γ : Type} :
    ∀ (l : List γ) (i : Nat) (a : γ), l[i]? = some a → a ∈ l := by
  intro l
  induction l with
  | nil => intro i a h; cases h
  | cons x t ih =>
    intro i a h
    cases i with
    | zero =>
      rw [List.getElem?_cons_zero] at h
      cases h
      exact List.mem_cons_self _ _
    | succ j =>
      rw [List.getElem?_cons_succ] at h
      exact List.mem_cons_of_mem _ (ih j a h)

theorem mem_getq {γ : Type} {a : γ} :
    ∀ {l : List γ}, a ∈ l → ∃ i : Nat, l[i]? = some a := by
  intro l h
  induction l with
  | nil => cases h
  | cons x t ih =>
    rcases List.mem_cons.mp h with h2 | h2
    · refine ⟨0, ?_⟩
      rw [h2]
      simp
    · obtain ⟨i, hi⟩ := ih h2
      refine ⟨i + 1, ?_⟩
      rw [List.getElem?_cons_succ]
      exact hi

/-- C2: merge-reader correctness.  Fed readers whose records are
strictly sorted by key within each file and whose segment ids are
distinct, the merge reader emits entries in strictly ascending
user-key order (so the emitted keys are free of duplicates), emits a
key if and only if some reader holds a record for it — together:
exactly one entry per unique user key — and every emitted
`(key, value, segment id, checksum)` is the record for that key from
the reader with the highest segment id among those holding the key;
the other versions are skipped. -/
theorem C2_merge_reader_correctness {α β : Type} [LinearOrder α]
    (readers : List (MReader α β))
    (hsorted : ∀ r ∈ readers,
      (r.entries.map (fun e => e.1)).Pairwise (fun a b => a < b))
    (hids : (readers.map (fun r => r.segment_id)).Nodup) :
    ((mergeOut ⟨readers, []⟩).map (fun o => o.1)).Pairwise
      (fun a b => a < b) ∧
    ((mergeOut ⟨readers, []⟩).map (fun o => o.1)).Nodup ∧
    (∀ k : α, (∃ o ∈ mergeOut ⟨readers, []⟩, o.1 = k) ↔
      ∃ r ∈ readers, ∃ e ∈ r.entries, e.1 = k) ∧
    (∀ o ∈ mergeOut ⟨readers, []⟩,
      (∃ r ∈ readers, r.segment_id = o.2.2.1 ∧
        (o.1, o.2.1, o.2.2.2) ∈ r.entries) ∧
      ∀ r ∈ readers, (∃ e ∈ r.entries, e.1 = o.1) →
        r.segment_id ≤ o.2.2.1) := by
  have hinv : MInv (⟨readers, []⟩ : MergeState α β) := by
    refine ⟨List.Pairwise.nil, ?_, List.nodup_nil, ?_, ?_, hids⟩
    · intro it hit
      cases hit
    · intro i r _ _
      exact Or.inl rfl
    · intro i r hri
      exact hsorted r (getq_mem readers i r hri)
  obtain ⟨P1, P2, P3⟩ := mergeOutF_spec
    (mgMeasure (⟨readers, []⟩ : MergeState α β)) ⟨readers, []⟩
    (le_refl _) hinv
  have hpend : ∀ q : α × β × Nat × Nat,
      q ∈ mgPending (⟨readers, []⟩ : MergeState α β) ↔
      ∃ (j : Nat) (r : MReader α β), readers[j]? = some r ∧
        q ∈ rItems r :=
    fun q => mem_readerFlat readers q
  have hout : mergeOut (⟨readers, []⟩ : MergeState α β) =
      mergeOutF (mgMeasure (⟨readers, []⟩ : MergeState α β) + 1)
        ⟨readers, []⟩ := rfl
  rw [hout]
  refine ⟨P1, P1.imp (fun h => ne_of_lt h), ?_, ?_⟩
  · intro k
    rw [P2 k]
    constructor
    · rintro ⟨q, hq, heq⟩
      rw [hpend q] at hq
      obtain ⟨j, r, hj, hqr⟩ := hq
      refine ⟨r, getq_mem readers j r hj, ?_⟩
      rw [rItems, List.mem_map] at hqr
      obtain ⟨e, he, heq2⟩ := hqr
      refine ⟨e, he, ?_⟩
      rw [← heq, ← heq2]
    · rintro ⟨r, hr, e, he, heq⟩
      obtain ⟨j, hj⟩ := mem_getq hr
      refine ⟨(e.1, e.2.1, r.segment_id, e.2.2), ?_, heq⟩
      rw [hpend]
      exact ⟨j, r, hj, List.mem_map_of_mem _ he⟩
  · intro o ho
    obtain ⟨hP, hM⟩ := P3 o ho
    rw [hpend o] at hP
    obtain ⟨j, r, hj, hor⟩ := hP
    constructor
    · refine ⟨r, getq_mem readers j r hj, ?_⟩
      rw [rItems, List.mem_map] at hor
      obtain ⟨e, he, heq2⟩ := hor
      constructor
      · rw [← heq2]
      · rw [← heq2]
        exact he
    · intro r2 hr2 h2
      obtain ⟨e2, he2, heq3⟩ := h2
      obtain ⟨j2, hj2⟩ := mem_getq hr2
      have hq : (e2.1, e2.2.1, r2.segment_id, e2.2.2) ∈
          mgPending (⟨readers, []⟩ : MergeState α β) := by
        rw [hpend]
        exact ⟨j2, r2, hj2, List.mem_map_of_mem _ he2⟩
      exact hM _ hq heq3

/-- Witness: two readers over sorted files sharing key 1; the merge
emits key 1 from segment 2 (the higher id) and key 2 from segment 1,
in ascending key order. -/
theorem C2_merge_reader_correctness_witness :
    (∀ r ∈ ([⟨1, [(1, 10, 0), (2, 30, 0)]⟩, ⟨2, [(1, 20, 0)]⟩] :
        List (MReader Nat Nat)),
      (r.entries.map (fun e => e.1)).Pairwise (fun a b => a < b)) ∧
    (([⟨1, [(1, 10, 0), (2, 30, 0)]⟩, ⟨2, [(1, 20, 0)]⟩] :
        List (MReader Nat Nat)).map (fun r => r.segment_id)).Nodup ∧
    ((mergeOut (⟨[⟨1, [(1, 10, 0), (2, 30, 0)]⟩, ⟨2, [(1, 20, 0)]⟩], []⟩ :
        MergeState Nat Nat)).map (fun o => o.1)).Pairwise
      (fun a b => a < b) ∧
    mergeOut (⟨[⟨1, [(1, 10, 0), (2, 30, 0)]⟩, ⟨2, [(1, 20, 0)]⟩], []⟩ :
        MergeState Nat Nat) = [(1, 20, 2, 0), (2, 30, 1, 0)] :=
  ⟨by decide, by decide,
    (C2_merge_reader_correctness
      [⟨1, [(1, 10, 0), (2, 30, 0)]⟩, ⟨2, [(1, 20, 0)]⟩]
      (by decide) (by decide)).1,
    by decide⟩
